import Mathlib

/-!
# cel-demo: rule validation and ordered evaluation (`main.go`)

A shallow embedding of the request-handling core of `main.go`:

* `checkRule`, `evaluateRule` and the two loops of `testHandler`, over an
  abstract expression engine `Env` (the configured `cel.Env` of cel-go: parse,
  check, static output type, program construction, evaluation with cost);
* the `ipInRange` binding, over a model of the functions of Go's standard
  `net` package that it calls (`ParseIP`, `ParseCIDR`, `IPNet.Contains`) and of
  the formatting of its error texts (`fmt.Sprintf`, `types.NewErr`).

HTTP transport, JSON decoding and encoding, and the construction of the
environment are outside the embedding: `testHandler` below starts from the
decoded `TestPayload` and the constructed environment and returns the
`TestResult` that the handler serialises.
-/

namespace CelDemo

/-! ## Data model -/

/-- The `Origin` struct. -/
structure Origin where
  Ip : String
  RegionCode : String
deriving DecidableEq, Repr

/-- The `Request` struct; `Headers` is a Go map, kept as an association list. -/
structure Request where
  Headers : List (String × String)
  Method : String
  Path : String
  Scheme : String
  Query : String
deriving DecidableEq, Repr

/-- The `Rule` struct (the Go field `Type` is named `RuleType` here). -/
structure Rule where
  Expression : String
  Name : String
  RuleType : String
  StatusCode : Option Int
  RedirectUrl : Option String
deriving DecidableEq, Repr

/-- The `TestPayload` struct. -/
structure TestPayload where
  Rules : List Rule
  Request : Request
  Origin : Origin
deriving DecidableEq, Repr

/-- The `evalResult` struct. -/
structure evalResult where
  cost : Nat
  matched : Bool
deriving DecidableEq, Repr

/-- The `InvalidRule` struct. -/
structure InvalidRule where
  Rule : Rule
  Error : String
deriving DecidableEq, Repr

/-- The `ExecutionError` struct. -/
structure ExecutionError where
  Rule : Rule
  Error : String
deriving DecidableEq, Repr

/-- The `Evaluation` struct. -/
structure Evaluation where
  Rule : Rule
  Result : Bool
  Cost : Nat
deriving DecidableEq, Repr

/-- The `TestResult` struct; a nil pointer is `none`, a nil slice is `[]`. -/
structure TestResult where
  MatchedRule : Option Rule
  InvalidRules : List InvalidRule
  ExecutionError : Option ExecutionError
  Evaluations : List Evaluation
deriving DecidableEq, Repr

/-! ## The expression engine (cel-go), as an interface -/

/-- Static types of the expression language, with the types the environment of
`testHandler` can produce. -/
inductive CelType where
  | BoolType
  | BytesType
  | DoubleType
  | IntType
  | StringType
  | UintType
  | NullType
  | DynType
  | ErrorType
  | ObjectType (name : String)
  | ListType (elem : CelType)
  | MapType (key : CelType) (value : CelType)
deriving DecidableEq, Repr

/-- The rendering of a type under the `%v` verb (its `String` method). -/
def CelType.format : CelType → String
  | .BoolType => "bool"
  | .BytesType => "bytes"
  | .DoubleType => "double"
  | .IntType => "int"
  | .StringType => "string"
  | .UintType => "uint"
  | .NullType => "null_type"
  | .DynType => "dyn"
  | .ErrorType => "error"
  | .ObjectType name => name
  | .ListType e => "list(" ++ e.format ++ ")"
  | .MapType k v => "map(" ++ k.format ++ ", " ++ v.format ++ ")"

/-- Runtime values (`ref.Val`) that occur here: booleans, integers, strings and
error values (`types.NewErr`). -/
inductive Val where
  | bool (b : Bool)
  | int (n : Int)
  | str (s : String)
  | err (msg : String)
deriving DecidableEq, Repr

/-- The rendering of a value under the `%v` verb. -/
def Val.format : Val → String
  | .bool b => if b then "true" else "false"
  | .int n => toString n
  | .str s => s
  | .err msg => msg

/-- The variable bindings handed to `program.Eval`: the map with the keys
`request` and `origin`. -/
structure Vars where
  request : Request
  origin : Origin
deriving DecidableEq, Repr

/-- The configured `cel.Env`, reduced to the operations `main.go` calls.
A Go `(value, error)` pair is an `Except`, the error being its `Error()` text.
`Eval` yields the output value and the tracked cost (`det.ActualCost()`). -/
structure Env (Ast Prog : Type) where
  Parse : String → Except String Ast
  Check : Ast → Except String Ast
  OutputType : Ast → CelType
  Program : Ast → Except String Prog
  Eval : Prog → Vars → Except String (Val × Nat)

/-! ## `checkRule` and `evaluateRule` -/

section Engine

variable {Ast Prog : Type}

/-- The function `checkRule`: parse, check, and require the static output type
to be `cel.BoolType`. -/
def checkRule (rule : Rule) (env : Env Ast Prog) : Except String Ast :=
  match env.Parse rule.Expression with
  | .error e => .error e
  | .ok ast =>
    match env.Check ast with
    | .error e => .error e
    | .ok checked =>
      if env.OutputType checked ≠ CelType.BoolType then
        .error ("invalid return type, got " ++ (env.OutputType checked).format
          ++ ", wanted boolean")
      else
        .ok checked

/-- The function `evaluateRule`. The argument is the `*cel.Ast` read from the
map, which is nil (`none`) when the key is absent. The outer `Option` is `none`
when the Go code panics: on a nil `checked`, or when the type assertion
`out.Value().(bool)` fails. -/
def evaluateRule (checked : Option Ast) (env : Env Ast Prog) (vars : Vars) :
    Option (Except String evalResult) :=
  match checked with
  | none => none
  | some c =>
    match env.Program c with
    | .error e => some (.error e)
    | .ok program =>
      match env.Eval program vars with
      | .error e => some (.error e)
      | .ok (out, cost) =>
        match out with
        | .bool b => some (.ok { cost := cost, matched := b })
        | _ => none

/-! ## `testHandler` -/

/-- The map `asts` from rule names to checked expressions. -/
abbrev AstMap (Ast : Type) := String → Option Ast

/-- The assignment `asts[name] = checked`. -/
def AstMap.set (m : AstMap Ast) (name : String) (checked : Ast) : AstMap Ast :=
  fun k => if k = name then some checked else m k

/-- One iteration of the first loop of `testHandler`. -/
def validateStep (env : Env Ast Prog) (st : AstMap Ast × List InvalidRule) (rule : Rule) :
    AstMap Ast × List InvalidRule :=
  match checkRule rule env with
  | .error e => (st.1, st.2 ++ [{ Rule := rule, Error := e }])
  | .ok checked => (st.1.set rule.Name checked, st.2)

/-- The first loop of `testHandler`: it fills `asts` and `invalidRules`. -/
def validate (env : Env Ast Prog) (rules : List Rule) : AstMap Ast × List InvalidRule :=
  rules.foldl (validateStep env) (fun _ => none, [])

/-- The second loop of `testHandler`, over the remaining rules, with the
current `testResult` and `evaluations`; `none` when `evaluateRule` panics. -/
def evalLoop (env : Env Ast Prog) (vars : Vars) (asts : AstMap Ast) :
    List Rule → TestResult → List Evaluation → Option (TestResult × List Evaluation)
  | [], testResult, evaluations => some (testResult, evaluations)
  | rule :: rest, testResult, evaluations =>
    match evaluateRule (asts rule.Name) env vars with
    | none => none
    | some (.error e) =>
      some ({ testResult with ExecutionError := some { Rule := rule, Error := e } },
        evaluations)
    | some (.ok res) =>
      let evaluations := evaluations ++
        [{ Rule := rule, Result := res.matched, Cost := res.cost }]
      if res.matched then
        some ({ testResult with MatchedRule := some rule }, evaluations)
      else
        evalLoop env vars asts rest testResult evaluations

/-- The zero value `TestResult{}`. -/
def emptyResult : TestResult :=
  { MatchedRule := none, InvalidRules := [], ExecutionError := none, Evaluations := [] }

/-- The variable bindings `vars` built from the payload. -/
def varsOf (payload : TestPayload) : Vars :=
  { request := payload.Request, origin := payload.Origin }

/-- The body of `testHandler` from the decoded payload and the constructed
environment to the `TestResult` it serialises; `none` when the handler
panics. -/
def testHandler (env : Env Ast Prog) (payload : TestPayload) : Option TestResult :=
  let vars := varsOf payload
  let (asts, invalidRules) := validate env payload.Rules
  let testResult := emptyResult
  let evaluations : List Evaluation := []
  if invalidRules.length > 0 then
    some { testResult with InvalidRules := invalidRules, Evaluations := evaluations }
  else
    match evalLoop env vars asts payload.Rules testResult evaluations with
    | none => none
    | some (testResult, evaluations) => some { testResult with Evaluations := evaluations }


/-! ## Derived notions used in the statements -/

/-- Whether `checkRule` accepts the rule. -/
def passes (env : Env Ast Prog) (rule : Rule) : Bool :=
  match checkRule rule env with
  | .ok _ => true
  | .error _ => false

/-- The `InvalidRule` record the first loop appends for a rejected rule. -/
def invalidOf (env : Env Ast Prog) (rule : Rule) : Option InvalidRule :=
  match checkRule rule env with
  | .error e => some { Rule := rule, Error := e }
  | .ok _ => none

/-- The checked expression of the last accepted rule of the list that carries
the given name. -/
def lastChecked (env : Env Ast Prog) : List Rule → String → Option Ast
  | [], _ => none
  | rule :: rest, name =>
    match lastChecked env rest name with
    | some c => some c
    | none =>
      if rule.Name = name then
        match checkRule rule env with
        | .ok c => some c
        | .error _ => none
      else none

/-- Evaluation of a rule's own expression: `evaluateRule` on what `checkRule`
returns for this very rule. -/
def ownEval (env : Env Ast Prog) (vars : Vars) (rule : Rule) :
    Option (Except String evalResult) :=
  match checkRule rule env with
  | .ok c => evaluateRule (some c) env vars
  | .error _ => none

/-- Evaluation of a rule as the second loop of `testHandler` performs it for
the submitted list: `evaluateRule` on the entry of `asts` under the rule's
name. -/
def usedEval (env : Env Ast Prog) (vars : Vars) (rules : List Rule) (rule : Rule) :
    Option (Except String evalResult) :=
  evaluateRule ((validate env rules).1 rule.Name) env vars

/-- The `Evaluation` record appended for a rule evaluated through `f`. -/
def recordOf (f : Rule → Option (Except String evalResult)) (rule : Rule) :
    Option Evaluation :=
  match f rule with
  | some (.ok res) => some { Rule := rule, Result := res.matched, Cost := res.cost }
  | _ => none

/-- Type soundness of the engine for boolean expressions: a checked expression
of static type `bool` whose evaluation succeeds yields a boolean value. -/
def BoolSound (env : Env Ast Prog) : Prop :=
  ∀ ast checked program vars out cost,
    env.Check ast = .ok checked → env.OutputType checked = CelType.BoolType →
    env.Program checked = .ok program → env.Eval program vars = .ok (out, cost) →
    ∃ b, out = Val.bool b

/-- Every rule of the list evaluates, through `f`, to `false` without error. -/
def AllFalse (f : Rule → Option (Except String evalResult)) (l : List Rule) : Prop :=
  ∀ x ∈ l, ∃ cost, f x = some (.ok { cost := cost, matched := false })

/-- The three ways the second loop of `testHandler` ends on `rules`, started
with `tr` and `evs`, where `f` is the evaluation of one rule: at the first
rule that evaluates to `true`, at the first rule whose evaluation fails, or
at the end of the list. -/
def LoopEnd (f : Rule → Option (Except String evalResult)) (rules : List Rule)
    (tr : TestResult) (evs : List Evaluation) (tr' : TestResult)
    (evs' : List Evaluation) : Prop :=
  (∃ pre rule post cost, rules = pre ++ rule :: post ∧ AllFalse f pre ∧
      f rule = some (.ok { cost := cost, matched := true }) ∧
      evs' = evs ++ pre.filterMap (recordOf f) ++
        [{ Rule := rule, Result := true, Cost := cost }] ∧
      tr' = { tr with MatchedRule := some rule }) ∨
  (∃ pre rule post e, rules = pre ++ rule :: post ∧ AllFalse f pre ∧
      f rule = some (.error e) ∧
      evs' = evs ++ pre.filterMap (recordOf f) ∧
      tr' = { tr with ExecutionError := some { Rule := rule, Error := e } }) ∨
  (AllFalse f rules ∧ evs' = evs ++ rules.filterMap (recordOf f) ∧ tr' = tr)

/-- The prefix of `rules` that is evaluated, for the evaluation `f` of one rule:
up to and including the first rule that evaluates to `true`, or up to and
excluding the first rule whose evaluation fails, or the whole list if neither
occurs. -/
def EvalPrefix (f : Rule → Option (Except String evalResult)) (rules evaluated : List Rule) :
    Prop :=
  (∃ pre rule post cost, rules = pre ++ rule :: post ∧ AllFalse f pre ∧
      f rule = some (.ok { cost := cost, matched := true }) ∧ evaluated = pre ++ [rule]) ∨
  (∃ pre rule post msg, rules = pre ++ rule :: post ∧ AllFalse f pre ∧
      f rule = some (.error msg) ∧ evaluated = pre) ∨
  (AllFalse f rules ∧ evaluated = rules)

end Engine

/-! ## The functions of Go's `net` package called by `ipInRange`

An IP address (`net.IP`) and a mask (`net.IPMask`) are byte slices, here lists
of numbers below 256. The definitions follow `net/ip.go` and `net/parse.go` of
the Go standard library (the version with `parseIPv4` and `parseIPv6`). -/

namespace GoNet

/-- `IPv4len`. -/
def IPv4len : Nat := 4
/-- `IPv6len`. -/
def IPv6len : Nat := 16

/-- `IPNet`: a network number and a mask; the nil slice is `[]`. -/
structure IPNet where
  IP : List Nat
  Mask : List Nat
deriving DecidableEq, Repr

/-- `v4InV6Prefix`. -/
def v4InV6Prefix : List Nat := [0, 0, 0, 0, 0, 0, 0, 0, 0, 0, 0xff, 0xff]

/-- `IPv4(a, b, c, d)`: the 16-byte form of an IPv4 address. -/
def IPv4 (a b c d : Nat) : List Nat := v4InV6Prefix ++ [a, b, c, d]

/-- `isZeros`. -/
def isZeros (p : List Nat) : Bool := p.all (fun b => b == 0)

/-- `allFF`. -/
def allFF (b : List Nat) : Bool := b.all (fun c => c == 0xff)

/-- `IP.To4`: the 4-byte form of an IPv4 address, also of one in 16-byte
IPv4-mapped form; `none` is nil. -/
def To4 (ip : List Nat) : Option (List Nat) :=
  if ip.length == IPv4len then some ip
  else if ip.length == IPv6len && isZeros (ip.take 10) && ip.getD 10 0 == 0xff
      && ip.getD 11 0 == 0xff then
    some ((ip.drop 12).take 4)
  else none

/-- The loop of `CIDRMask`: `l` bytes remain to be written, `n` one-bits remain. -/
def cidrMaskLoop : Nat → Nat → List Nat
  | 0, _ => []
  | l + 1, n =>
    if n ≥ 8 then 0xff :: cidrMaskLoop l (n - 8)
    else (0xff ^^^ (0xff >>> n)) :: cidrMaskLoop l 0

/-- `CIDRMask(ones, bits)`; `none` is the nil mask. -/
def CIDRMask (ones bits : Nat) : Option (List Nat) :=
  if bits != 8 * IPv4len && bits != 8 * IPv6len then none
  else if ones > bits then none
  else some (cidrMaskLoop (bits / 8) ones)

/-- `IP.Mask`; `none` is nil. -/
def Mask (ip mask : List Nat) : Option (List Nat) :=
  let mask := if mask.length == IPv6len && ip.length == IPv4len && allFF (mask.take 12)
    then mask.drop 12 else mask
  let ip := if mask.length == IPv4len && ip.length == IPv6len && ip.take 12 == v4InV6Prefix
    then ip.drop 12 else ip
  if ip.length != mask.length then none
  else some (List.zipWith (fun a b => a &&& b) ip mask)

/-- `networkNumberAndMask`; the nil pair is `([], [])`. -/
def networkNumberAndMask (n : IPNet) : List Nat × List Nat :=
  let ip? : Option (List Nat) :=
    match To4 n.IP with
    | some x => some x
    | none => if n.IP.length != IPv6len then none else some n.IP
  match ip? with
  | none => ([], [])
  | some ip =>
    let m := n.Mask
    if m.length == IPv4len then
      if ip.length != IPv4len then ([], []) else (ip, m)
    else if m.length == IPv6len then
      if ip.length == IPv4len then (ip, m.drop 12) else (ip, m)
    else ([], [])

/-- `IPNet.Contains`. -/
def IPNet.Contains (n : IPNet) (ip : List Nat) : Bool :=
  let (nn, m) := networkNumberAndMask n
  let ip := match To4 ip with
    | some x => x
    | none => ip
  let l := ip.length
  if l != nn.length then false
  else (List.range l).all (fun i => nn.getD i 0 &&& m.getD i 0 == ip.getD i 0 &&& m.getD i 0)

/-- The bound `big` of the decimal and hexadecimal readers. -/
def big : Nat := 0xFFFFFF

/-- The loop of `dtoi`, on the remaining bytes, with the current `n` and `i`;
the flag is `false` on overflow. -/
def dtoiLoop : List Char → Nat → Nat → Nat × Nat × Bool
  | [], n, i => (n, i, true)
  | c :: cs, n, i =>
    if '0' ≤ c ∧ c ≤ '9' then
      let n := n * 10 + (c.toNat - '0'.toNat)
      if n ≥ big then (big, i, false) else dtoiLoop cs n (i + 1)
    else (n, i, true)

/-- `dtoi`: decimal to integer; returns number, characters consumed, success. -/
def dtoi (s : List Char) : Nat × Nat × Bool :=
  match dtoiLoop s 0 0 with
  | (n, i, false) => (n, i, false)
  | (n, i, true) => if i == 0 then (0, 0, false) else (n, i, true)

/-- The loop of `xtoi`. -/
def xtoiLoop : List Char → Nat → Nat → Nat × Nat × Bool
  | [], n, i => (n, i, true)
  | c :: cs, n, i =>
    if '0' ≤ c ∧ c ≤ '9' then
      let n := n * 16 + (c.toNat - '0'.toNat)
      if n ≥ big then (0, i, false) else xtoiLoop cs n (i + 1)
    else if 'a' ≤ c ∧ c ≤ 'f' then
      let n := n * 16 + (c.toNat - 'a'.toNat) + 10
      if n ≥ big then (0, i, false) else xtoiLoop cs n (i + 1)
    else if 'A' ≤ c ∧ c ≤ 'F' then
      let n := n * 16 + (c.toNat - 'A'.toNat) + 10
      if n ≥ big then (0, i, false) else xtoiLoop cs n (i + 1)
    else (n, i, true)

/-- `xtoi`: hexadecimal to integer; returns number, characters consumed,
success. -/
def xtoi (s : List Char) : Nat × Nat × Bool :=
  match xtoiLoop s 0 0 with
  | (n, i, false) => (n, i, false)
  | (n, i, true) => if i == 0 then (0, i, false) else (n, i, true)

/-- The loop of `parseIPv4`: `k` octets remain, `i` is the loop index, `p` the
octets read so far. -/
def parseIPv4Loop : Nat → Nat → List Char → List Nat → Option (List Nat × List Char)
  | 0, _, s, p => some (p, s)
  | k + 1, i, s, p =>
    if s.length == 0 then none
    else
      let s? : Option (List Char) :=
        if i > 0 then (if s.head? != some '.' then none else some (s.drop 1)) else some s
      match s? with
      | none => none
      | some s =>
        match dtoi s with
        | (n, c, ok) =>
          if !ok || n > 0xFF then none
          else if c > 1 && s.head? == some '0' then none
          else parseIPv4Loop k (i + 1) (s.drop c) (p ++ [n % 256])

/-- `parseIPv4`: dotted decimal (`d.d.d.d`). -/
def parseIPv4 (s : List Char) : Option (List Nat) :=
  match parseIPv4Loop IPv4len 0 s [] with
  | none => none
  | some (p, s) =>
    if s.length != 0 then none
    else some (IPv4 (p.getD 0 0) (p.getD 1 0) (p.getD 2 0) (p.getD 3 0))

/-- The variables of the loop of `parseIPv6`; `ellipsis` is `none` for `-1`. -/
structure V6State where
  ip : List Nat
  i : Nat
  s : List Char
  ellipsis : Option Nat
deriving DecidableEq, Repr

/-- The loop of `parseIPv6` (`for i < IPv6len`); every iteration that continues
adds 2 to `i`, so the fuel `IPv6len` is never exhausted. A `return nil` is
`none`, a `break` returns the state. -/
def parseIPv6Loop : Nat → V6State → Option V6State
  | 0, st => some st
  | fuel + 1, st =>
    if st.i < IPv6len then
      match xtoi st.s with
      | (n, c, ok) =>
        if !ok || n > 0xFFFF then none
        else if c < st.s.length && st.s.getD c ' ' == '.' then
          if st.ellipsis.isNone && st.i != IPv6len - IPv4len then none
          else if st.i + IPv4len > IPv6len then none
          else
            match parseIPv4 st.s with
            | none => none
            | some ip4 =>
              some { ip := (((st.ip.set st.i (ip4.getD 12 0)).set (st.i + 1) (ip4.getD 13 0)).set
                        (st.i + 2) (ip4.getD 14 0)).set (st.i + 3) (ip4.getD 15 0),
                     i := st.i + IPv4len, s := [], ellipsis := st.ellipsis }
        else
          let ip := (st.ip.set st.i ((n >>> 8) % 256)).set (st.i + 1) (n % 256)
          let i := st.i + 2
          let s := st.s.drop c
          if s.length == 0 then some { ip := ip, i := i, s := s, ellipsis := st.ellipsis }
          else if s.head? != some ':' || s.length == 1 then none
          else
            let s := s.drop 1
            if s.head? == some ':' then
              if st.ellipsis.isSome then none
              else
                let s := s.drop 1
                if s.length == 0 then some { ip := ip, i := i, s := s, ellipsis := some i }
                else parseIPv6Loop fuel { ip := ip, i := i, s := s, ellipsis := some i }
            else parseIPv6Loop fuel { ip := ip, i := i, s := s, ellipsis := st.ellipsis }
    else some st

/-- The part of `parseIPv6` from the loop on: the whole string must be used, and
the ellipsis is expanded. -/
def parseIPv6Tail (ellipsis : Option Nat) (s : List Char) : Option (List Nat) :=
  match parseIPv6Loop IPv6len { ip := List.replicate IPv6len 0, i := 0, s := s, ellipsis := ellipsis } with
  | none => none
  | some st =>
    if st.s.length != 0 then none
    else if st.i < IPv6len then
      match st.ellipsis with
      | none => none
      | some e =>
        let n := IPv6len - st.i
        let ip := (List.range (st.i - e)).foldl
          (fun ip t => ip.set (st.i - 1 - t + n) (ip.getD (st.i - 1 - t) 0)) st.ip
        let ip := (List.range n).foldl (fun ip t => ip.set (e + n - 1 - t) 0) ip
        some ip
    else if st.ellipsis.isSome then none
    else some st.ip

/-- `parseIPv6`, without zone. -/
def parseIPv6 (s : List Char) : Option (List Nat) :=
  if s.length ≥ 2 && s.getD 0 ' ' == ':' && s.getD 1 ' ' == ':' then
    let s := s.drop 2
    if s.length == 0 then some (List.replicate IPv6len 0)
    else parseIPv6Tail (some 0) s
  else parseIPv6Tail none s

/-- The loop of `ParseIP`: the first `.` or `:` selects the parser. -/
def parseIPScan (s : List Char) : List Char → Option (List Nat)
  | [] => none
  | c :: cs =>
    if c == '.' then parseIPv4 s
    else if c == ':' then parseIPv6 s
    else parseIPScan s cs

/-- `net.ParseIP`; `none` is nil. A Go string is a byte sequence; the parsers
only accept ASCII bytes, so they are run on the characters of the string. -/
def ParseIP (s : String) : Option (List Nat) := parseIPScan s.toList s.toList

/-- `net.ParseCIDR`; `none` is the error return. -/
def ParseCIDR (s : String) : Option (List Nat × IPNet) :=
  let s := s.toList
  let i := s.indexOf '/'
  if i ≥ s.length then none
  else
    let addr := s.take i
    let mask := s.drop (i + 1)
    let (iplen, ip) : Nat × Option (List Nat) :=
      match parseIPv4 addr with
      | some ip => (IPv4len, some ip)
      | none => (IPv6len, parseIPv6 addr)
    match dtoi mask with
    | (n, j, ok) =>
      match ip with
      | none => none
      | some ip =>
        if !ok || j != mask.length || n > 8 * iplen then none
        else
          match CIDRMask n (8 * iplen) with
          | none => none
          | some m => some (ip, { IP := (Mask ip m).getD [], Mask := m })

/-! ### Containment, as the specification words it -/

/-- Bytewise conjunction of an address with a mask. -/
def andBytes (a m : List Nat) : List Nat := List.zipWith (fun x y => x &&& y) a m

/-- Whether an address counts as IPv4: it has a 4-byte form, that is, it is
4 bytes long or is a 16-byte IPv4-mapped address (`::ffff:a.b.c.d`). -/
def isIPv4 (ip : List Nat) : Bool := (To4 ip).isSome

/-- The normal form of an address: its 4-byte form when it counts as IPv4, else
the address itself. -/
def normalForm (ip : List Nat) : List Nat :=
  match To4 ip with
  | some x => x
  | none => ip

/-- The mask of a network in the length of the network's normal form: the last
4 bytes of a 16-byte mask when the network number counts as IPv4. -/
def normalMask (n : IPNet) : List Nat :=
  if isIPv4 n.IP && n.Mask.length == IPv6len then n.Mask.drop 12 else n.Mask

/-- Prefix-masking containment with matching address family: the address and
the network number are of the same family, and the address under the network's
mask is the network number. -/
def InNetwork (n : IPNet) (ip : List Nat) : Prop :=
  isIPv4 ip = isIPv4 n.IP ∧ andBytes (normalForm ip) (normalMask n) = normalForm n.IP

end GoNet

/-! ## `fmt.Sprintf` on a format without operands

`types.NewErr(format, args...)` of cel-go builds its error with
`fmt.Errorf(format, args...)`. The binding calls it with one argument, a text
that `fmt.Sprintf` has already produced, so that text is formatted once more,
as a format with an empty operand list. The definitions follow `doPrintf` of
`fmt/print.go` for that case. A Go string is a byte sequence; the directives
are made of ASCII bytes and a verb is decoded as one rune, so the format is
processed by characters. -/

namespace GoFmt

/-- `tooLarge`: the bound on widths, precisions and operand indices. -/
def tooLarge (x : Nat) : Bool := x > 1000000

/-- The loop of `parsenum`, on the bytes from `newi` to `end`, with the current
`num` and `isnum`; on overflow the position jumps to `end`. -/
def parsenumLoop : List Char → Nat → Bool → Nat × Bool × List Char
  | [], num, isnum => (num, isnum, [])
  | c :: cs, num, isnum =>
    if '0' ≤ c ∧ c ≤ '9' then
      if tooLarge num then (0, false, [])
      else parsenumLoop cs (num * 10 + (c.toNat - '0'.toNat)) true
    else (num, isnum, c :: cs)

/-- `parsenum(s, start, end)` on `s[start:end]`: the number, whether there is
one, and the rest `s[newi:end]`. -/
def parsenum (s : List Char) : Nat × Bool × List Char :=
  if s.length == 0 then (0, false, [])
  else parsenumLoop s 0 false

/-- `parseArgNumber(format)` on a format that starts with `[`: the index, the
number of characters to skip, and success. The test `len(format) < 3` counts
bytes. -/
def parseArgNumber (format : List Char) : Int × Nat × Bool :=
  if (String.mk format).utf8ByteSize < 3 then (0, 1, false)
  else
    let j := (format.drop 1).indexOf ']'
    if j ≥ (format.drop 1).length then (0, 1, false)
    else
      let i := j + 1
      match parsenum ((format.drop 1).take j) with
      | (width, ok, rest) =>
        if !ok || rest.length != 0 then (0, i + 1, false)
        else ((width : Int) - 1, i + 1, true)

/-- `argNumber(argNum, format, i, numArgs)` on `format[i:]`: the rest of the
format, `found`, and the new value of `goodArgNum`. The operand number itself
is left out: with `numArgs` operands an index is accepted when
`0 <= index < numArgs`, and otherwise `goodArgNum` becomes false. -/
def argNumber (s : List Char) (numArgs : Nat) (goodArgNum : Bool) :
    List Char × Bool × Bool :=
  if s.length == 0 || s.head? != some '[' then (s, false, goodArgNum)
  else
    match parseArgNumber s with
    | (index, wid, ok) =>
      if ok && decide (0 ≤ index) && decide (index < (numArgs : Int)) then
        (s.drop wid, true, goodArgNum)
      else (s.drop wid, ok, false)

/-- The loop `simpleFormat` of `doPrintf` when no operand is left: it skips
the flags `#`, `0`, `+`, `-` and space, and stops at any other byte. -/
def skipFlags : List Char → List Char
  | [] => []
  | c :: cs =>
    if c == '#' || c == '0' || c == '+' || c == '-' || c == ' ' then skipFlags cs
    else c :: cs

/-- One verb of `doPrintf` for an empty operand list, on the format after the
`%`: what is written to the buffer, and the rest of the format, `none` when the
loop is left at `noVerbString`. -/
def doVerb (s : List Char) : List Char × Option (List Char) :=
  let s := skipFlags s
  -- explicit argument index
  match argNumber s 0 true with
  | (s, afterIndex, goodArgNum) =>
    -- width
    let w : List Char × List Char × Bool × Bool :=
      if s.head? == some '*' then
        ("%!(BADWIDTH)".toList, s.drop 1, false, goodArgNum)
      else
        match parsenum s with
        | (_, widPresent, rest) =>
          ([], rest, afterIndex, if afterIndex && widPresent then false else goodArgNum)
    match w with
    | (out, s, afterIndex, goodArgNum) =>
      -- precision
      let p : List Char × List Char × Bool × Bool :=
        if s.head? == some '.' then
          let s := s.drop 1
          let goodArgNum := if afterIndex then false else goodArgNum
          match argNumber s 0 goodArgNum with
          | (s, afterIndex, goodArgNum) =>
            if s.head? == some '*' then
              (out ++ "%!(BADPREC)".toList, s.drop 1, false, goodArgNum)
            else
              match parsenum s with
              | (_, _, rest) => (out, rest, afterIndex, goodArgNum)
        else (out, s, afterIndex, goodArgNum)
      match p with
      | (out, s, afterIndex, goodArgNum) =>
        let q : List Char × Bool :=
          if !afterIndex then
            match argNumber s 0 goodArgNum with
            | (s, _, goodArgNum) => (s, goodArgNum)
          else (s, goodArgNum)
        match q with
        | (s, goodArgNum) =>
          match s with
          | [] => (out ++ "%!(NOVERB)".toList, none)
          | verb :: rest =>
            if verb == '%' then (out ++ ['%'], some rest)
            else if !goodArgNum then
              (out ++ "%!".toList ++ [verb] ++ "(BADINDEX)".toList, some rest)
            else
              (out ++ "%!".toList ++ [verb] ++ "(MISSING)".toList, some rest)

/-- The loop `formatLoop` of `doPrintf` for an empty operand list, on the rest
of the format, with the buffer. Every iteration that continues consumes a `%`,
so a fuel of the length of the format plus one is never exhausted. -/
def doPrintfLoop : Nat → List Char → List Char → List Char
  | 0, _, buf => buf
  | fuel + 1, s, buf =>
    let buf := buf ++ s.takeWhile (fun c => c != '%')
    match s.dropWhile (fun c => c != '%') with
    | [] => buf
    | _ :: s =>
      match doVerb s with
      | (out, none) => buf ++ out
      | (out, some rest) => doPrintfLoop fuel rest (buf ++ out)

/-- `fmt.Sprintf(format)` and the text of `fmt.Errorf(format)`, with no
operands. -/
def Sprintf (format : String) : String :=
  String.mk (doPrintfLoop (format.length + 1) format.toList [])

end GoFmt

/-! ## The `ipInRange` binding -/

/-- `types.NewErr(format)` with no further arguments: the error value whose
text is `fmt.Errorf(format)`. -/
def NewErr (format : String) : Val := .err (GoFmt.Sprintf format)

/-- The binary binding of `ipInRange` registered in `testHandler`. The text
`fmt.Sprintf("%v is not a valid ip", ipVal)` is the rendering of the value
followed by the rest of the format; it is handed to `types.NewErr` as a
format. -/
def ipInRange (ipVal ipRangeVal : Val) : Val :=
  match ipVal with
  | .str ipString =>
    match GoNet.ParseIP ipString with
    | none => NewErr (ipVal.format ++ " is not a valid ip")
    | some ip =>
      match ipRangeVal with
      | .str ipRangeString =>
        match GoNet.ParseCIDR ipRangeString with
        | none => NewErr (ipRangeVal.format ++ " is not a valid range")
        | some (_, ipRange) => .bool (ipRange.Contains ip)
      | _ => NewErr (ipRangeVal.format ++ " is not a valid range")
  | _ => NewErr (ipVal.format ++ " is not a valid ip")

/-- How `program.Eval` returns the value of an expression: an error value
becomes the error return, any other value is returned with the cost. -/
def evalReturn (v : Val) (cost : Nat) : Except String (Val × Nat) :=
  match v with
  | .err msg => .error msg
  | v => .ok (v, cost)

/-! ## A small engine instance

An instance of `Env` that knows a handful of expressions. It serves to run the
handler on concrete submissions. -/

/-- The expressions of the small engine. -/
inductive DemoExpr where
  | lit (b : Bool)
  | method
  | ipCheck (range : String)
  | undeclared
deriving DecidableEq, Repr

/-- Static type of a `DemoExpr`. -/
def DemoExpr.outputType : DemoExpr → CelType
  | .lit _ => .BoolType
  | .method => .StringType
  | .ipCheck _ => .BoolType
  | .undeclared => .ErrorType

/-- Parser of the small engine. -/
def demoParse (s : String) : Except String DemoExpr :=
  if s = "true" then .ok (.lit true)
  else if s = "false" then .ok (.lit false)
  else if s = "request.method" then .ok .method
  else if s = "ipInRange(origin.ip, '9.9.9.0/24')" then .ok (.ipCheck "9.9.9.0/24")
  else if s = "undeclared" then .ok .undeclared
  else .error "Syntax error"

/-- Evaluator of the small engine; every evaluation costs 1. -/
def demoEval (p : DemoExpr) (vars : Vars) : Except String (Val × Nat) :=
  match p with
  | .lit b => .ok (.bool b, 1)
  | .method => .ok (.str vars.request.Method, 1)
  | .ipCheck range => evalReturn (ipInRange (.str vars.origin.Ip) (.str range)) 1
  | .undeclared => .error "no such attribute"

/-- The small engine. -/
def demoEnv : Env DemoExpr DemoExpr where
  Parse := demoParse
  Check := fun a =>
    match a with
    | .undeclared => .error "undeclared reference"
    | a => .ok a
  OutputType := DemoExpr.outputType
  Program := fun a => .ok a
  Eval := demoEval

/-- A rule without action metadata. -/
def mkRule (name expression : String) : Rule :=
  { Expression := expression, Name := name, RuleType := "allow", StatusCode := none,
    RedirectUrl := none }

/-- A request and an origin for concrete submissions. -/
def demoRequest : Request :=
  { Headers := [], Method := "GET", Path := "/", Scheme := "https", Query := "" }

/-- An origin with the given address. -/
def originOf (ip : String) : Origin := { Ip := ip, RegionCode := "US" }

/-- A submission of the given rules from the given address. -/
def demoPayload (rules : List Rule) (ip : String) : TestPayload :=
  { Rules := rules, Request := demoRequest, Origin := originOf ip }

/-- Two accepted rules under one name: the first is `false`, the second `true`. -/
def sameNameRules : List Rule := [mkRule "n" "false", mkRule "n" "true"]

/-- The three rules of the first-match example: `false`, `true`, `true`. -/
def firstMatchRules : List Rule :=
  [mkRule "R1" "false", mkRule "R2" "true", mkRule "R3" "true"]

/-- The rule `ip_check`. -/
def ipCheckRule : Rule := mkRule "ip_check" "ipInRange(origin.ip, '9.9.9.0/24')"

/-! ## Lemmas on `checkRule` and the validation loop -/

section EngineLemmas

variable {Ast Prog : Type}

theorem checkRule_ok_iff (env : Env Ast Prog) (rule : Rule) (c : Ast) :
    checkRule rule env = .ok c ↔
      ∃ ast, env.Parse rule.Expression = .ok ast ∧ env.Check ast = .ok c ∧
        env.OutputType c = CelType.BoolType := by
  unfold checkRule
  cases hp : env.Parse rule.Expression with
  | error e => simp
  | ok ast =>
    dsimp only
    cases hc : env.Check ast with
    | error e => simp [hc]
    | ok checked =>
      dsimp only
      by_cases ht : env.OutputType checked = CelType.BoolType
      · simp only [ht, ne_eq, not_true_eq_false, ↓reduceIte, Except.ok.injEq]
        constructor
        · rintro rfl
          exact ⟨ast, rfl, hc, ht⟩
        · rintro ⟨ast', h1, h2, _⟩
          cases h1
          rw [hc] at h2
          cases h2
          rfl
      · simp only [ne_eq, ht, not_false_eq_true, ↓reduceIte]
        constructor
        · intro h
          cases h
        · rintro ⟨ast', h1, h2, h3⟩
          cases h1
          rw [hc] at h2
          cases h2
          exact absurd h3 ht

theorem passes_iff (env : Env Ast Prog) (rule : Rule) :
    passes env rule = true ↔ ∃ c, checkRule rule env = .ok c := by
  unfold passes
  cases h : checkRule rule env <;> simp

theorem passes_false_iff (env : Env Ast Prog) (rule : Rule) :
    passes env rule = false ↔ ∃ e, checkRule rule env = .error e := by
  unfold passes
  cases h : checkRule rule env <;> simp

theorem invalidOf_eq_none_iff (env : Env Ast Prog) (rule : Rule) :
    invalidOf env rule = none ↔ passes env rule = true := by
  unfold invalidOf passes
  cases h : checkRule rule env <;> simp

theorem validate_foldl (env : Env Ast Prog) (rules : List Rule) (m : AstMap Ast)
    (inv : List InvalidRule) :
    (rules.foldl (validateStep env) (m, inv)).2 = inv ++ rules.filterMap (invalidOf env) ∧
    ∀ name, (rules.foldl (validateStep env) (m, inv)).1 name =
      match lastChecked env rules name with
      | some c => some c
      | none => m name := by
  induction rules generalizing m inv with
  | nil => simp [lastChecked]
  | cons rule rest ih =>
    simp only [List.foldl_cons]
    cases hc : checkRule rule env with
    | error e =>
      have hs : validateStep env (m, inv) rule = (m, inv ++ [{ Rule := rule, Error := e }]) := by
        simp [validateStep, hc]
      rw [hs]
      obtain ⟨h1, h2⟩ := ih m (inv ++ [{ Rule := rule, Error := e }])
      refine ⟨?_, ?_⟩
      · rw [h1]
        simp [List.filterMap_cons, invalidOf, hc]
      · intro name
        rw [h2 name]
        simp only [lastChecked, hc]
        cases lastChecked env rest name <;> simp
    | ok c =>
      have hs : validateStep env (m, inv) rule = (m.set rule.Name c, inv) := by
        simp [validateStep, hc]
      rw [hs]
      obtain ⟨h1, h2⟩ := ih (m.set rule.Name c) inv
      refine ⟨?_, ?_⟩
      · rw [h1]
        simp [List.filterMap_cons, invalidOf, hc]
      · intro name
        rw [h2 name]
        simp only [lastChecked, hc]
        cases lastChecked env rest name with
        | some c' => simp
        | none =>
          simp only [AstMap.set]
          by_cases hn : name = rule.Name
          · simp [hn]
          · have hn' : ¬ rule.Name = name := fun h => hn h.symm
            simp [hn, hn']

theorem validate_invalid (env : Env Ast Prog) (rules : List Rule) :
    (validate env rules).2 = rules.filterMap (invalidOf env) := by
  have h := (validate_foldl env rules (fun _ => none) []).1
  simpa [validate] using h

theorem validate_asts (env : Env Ast Prog) (rules : List Rule) (name : String) :
    (validate env rules).1 name = lastChecked env rules name := by
  have h := (validate_foldl env rules (fun _ => none) []).2 name
  unfold validate
  rw [h]
  cases lastChecked env rules name <;> rfl

/-- What `asts` holds under a name: the checked form of the last accepted rule
of that name. -/
theorem lastChecked_eq_some (env : Env Ast Prog) (rules : List Rule) (name : String) (c : Ast)
    (h : lastChecked env rules name = some c) :
    ∃ pre rule post, rules = pre ++ rule :: post ∧ rule.Name = name ∧
      checkRule rule env = .ok c ∧
      ∀ x ∈ post, x.Name = name → passes env x = false := by
  induction rules with
  | nil => simp [lastChecked] at h
  | cons r rest ih =>
    simp only [lastChecked] at h
    cases hl : lastChecked env rest name with
    | some c' =>
      rw [hl] at h
      cases h
      obtain ⟨pre, rule, post, h1, h2, h3, h4⟩ := ih hl
      exact ⟨r :: pre, rule, post, by rw [h1]; rfl, h2, h3, h4⟩
    | none =>
      rw [hl] at h
      dsimp only at h
      by_cases hn : r.Name = name
      · rw [if_pos hn] at h
        cases hc : checkRule r env with
        | error e => rw [hc] at h; cases h
        | ok c' =>
          rw [hc] at h
          cases h
          refine ⟨[], r, rest, rfl, hn, hc, ?_⟩
          intro x hx hxn
          -- an accepted rule of that name in `rest` would make `lastChecked` defined
          clear ih
          induction rest with
          | nil => cases hx
          | cons y ys ihy =>
            simp only [lastChecked] at hl
            cases hys : lastChecked env ys name with
            | some c'' => rw [hys] at hl; cases hl
            | none =>
              rw [hys] at hl
              dsimp only at hl
              rcases List.mem_cons.mp hx with rfl | hx'
              · rw [if_pos hxn] at hl
                unfold passes
                cases hcx : checkRule x env with
                | error e => rfl
                | ok cx => rw [hcx] at hl; cases hl
              · exact ihy hys hx'
      · rw [if_neg hn] at h
        cases h

theorem lastChecked_isSome_of_mem (env : Env Ast Prog) (rules : List Rule) (rule : Rule)
    (hmem : rule ∈ rules) (hp : passes env rule = true) :
    ∃ c, lastChecked env rules rule.Name = some c := by
  induction rules with
  | nil => cases hmem
  | cons r rest ih =>
    simp only [lastChecked]
    cases hl : lastChecked env rest rule.Name with
    | some c => exact ⟨c, rfl⟩
    | none =>
      rcases List.mem_cons.mp hmem with rfl | hmem'
      · obtain ⟨c, hc⟩ := (passes_iff env rule).mp hp
        exact ⟨c, by simp [hc]⟩
      · obtain ⟨c, hc⟩ := ih hmem'
        rw [hl] at hc
        cases hc

/-- With pairwise distinct names, `asts` holds under a rule's name the checked
form of that very rule. -/
theorem lastChecked_of_nodup (env : Env Ast Prog) (rules : List Rule) (rule : Rule) (c : Ast)
    (hnd : (rules.map (fun r => r.Name)).Nodup) (hmem : rule ∈ rules)
    (hc : checkRule rule env = .ok c) :
    lastChecked env rules rule.Name = some c := by
  induction rules with
  | nil => cases hmem
  | cons r rest ih =>
    simp only [List.map_cons, List.nodup_cons] at hnd
    simp only [lastChecked]
    rcases List.mem_cons.mp hmem with rfl | hmem'
    · have hnone : lastChecked env rest rule.Name = none := by
        cases hl : lastChecked env rest rule.Name with
        | none => rfl
        | some c' =>
          obtain ⟨pre, r', post, h1, h2, _, _⟩ := lastChecked_eq_some env rest rule.Name c' hl
          exfalso
          apply hnd.1
          rw [h1]
          simp only [List.map_append, List.map_cons, List.mem_append, List.mem_cons]
          exact Or.inr (Or.inl h2.symm)
      rw [hnone]
      simp [hc]
    · rw [ih hnd.2 hmem']

/-- The engine never panics on a checked boolean expression when it is
type-sound. -/
theorem evaluateRule_ne_none (env : Env Ast Prog) (vars : Vars) (rule : Rule) (c : Ast)
    (hsound : BoolSound env) (hc : checkRule rule env = .ok c) :
    evaluateRule (some c) env vars ≠ none := by
  obtain ⟨ast, _, hck, hty⟩ := (checkRule_ok_iff env rule c).mp hc
  unfold evaluateRule
  dsimp only
  cases hp : env.Program c with
  | error e => simp
  | ok program =>
    dsimp only
    cases he : env.Eval program vars with
    | error e => simp
    | ok oc =>
      obtain ⟨out, cost⟩ := oc
      obtain ⟨b, rfl⟩ := hsound ast c program vars out cost hck hty hp he
      simp

theorem usedEval_ne_none (env : Env Ast Prog) (vars : Vars) (rules : List Rule)
    (hsound : BoolSound env) (hvalid : ∀ r ∈ rules, passes env r = true)
    (rule : Rule) (hmem : rule ∈ rules) :
    usedEval env vars rules rule ≠ none := by
  unfold usedEval
  rw [validate_asts]
  obtain ⟨c, hc⟩ := lastChecked_isSome_of_mem env rules rule hmem (hvalid rule hmem)
  rw [hc]
  obtain ⟨_, r', _, _, _, hr', _⟩ := lastChecked_eq_some env rules rule.Name c hc
  exact evaluateRule_ne_none env vars r' c hsound hr'

theorem usedEval_eq_ownEval (env : Env Ast Prog) (vars : Vars) (rules : List Rule)
    (hnd : (rules.map (fun r => r.Name)).Nodup) (hvalid : ∀ r ∈ rules, passes env r = true)
    (rule : Rule) (hmem : rule ∈ rules) :
    usedEval env vars rules rule = ownEval env vars rule := by
  obtain ⟨c, hc⟩ := (passes_iff env rule).mp (hvalid rule hmem)
  unfold usedEval ownEval
  rw [validate_asts, lastChecked_of_nodup env rules rule c hnd hmem hc, hc]

theorem allFalse_cons (f : Rule → Option (Except String evalResult)) (rule : Rule)
    (cost : Nat) (pre : List Rule)
    (h : f rule = some (.ok { cost := cost, matched := false })) (hp : AllFalse f pre) :
    AllFalse f (rule :: pre) := by
  intro x hx
  rcases List.mem_cons.mp hx with rfl | hx'
  · exact ⟨cost, h⟩
  · exact hp x hx'

theorem filterMap_recordOf_cons (f : Rule → Option (Except String evalResult)) (rule : Rule)
    (res : evalResult) (pre : List Rule) (h : f rule = some (.ok res)) :
    (rule :: pre).filterMap (recordOf f) =
      { Rule := rule, Result := res.matched, Cost := res.cost } :: pre.filterMap (recordOf f) := by
  simp [List.filterMap_cons, recordOf, h]

/-- The records of rules that all evaluate to `false`: one per rule, in order,
each with result `false` and the cost of that rule's evaluation. -/
theorem records_of_allFalse (f : Rule → Option (Except String evalResult)) (pre : List Rule)
    (h : AllFalse f pre) :
    (pre.filterMap (recordOf f)).map (fun e => e.Rule) = pre ∧
    ∀ e ∈ pre.filterMap (recordOf f),
      e.Result = false ∧ f e.Rule = some (.ok { cost := e.Cost, matched := false }) := by
  induction pre with
  | nil => simp
  | cons r rest ih =>
    obtain ⟨cost, hr⟩ := h r (List.mem_cons_self _ _)
    have hrest : AllFalse f rest := fun x hx => h x (List.mem_cons_of_mem _ hx)
    obtain ⟨ih1, ih2⟩ := ih hrest
    rw [filterMap_recordOf_cons f r _ rest hr]
    refine ⟨by simp [ih1], ?_⟩
    intro e he
    rcases List.mem_cons.mp he with rfl | he'
    · exact ⟨rfl, hr⟩
    · exact ih2 e he'

/-- The second loop of `testHandler` returns, and ends in one of the three
ways of `LoopEnd`, when no evaluation panics. -/
theorem evalLoop_spec (env : Env Ast Prog) (vars : Vars) (asts : AstMap Ast)
    (rules : List Rule) (tr : TestResult) (evs : List Evaluation)
    (hf : ∀ x ∈ rules, evaluateRule (asts x.Name) env vars ≠ none) :
    ∃ tr' evs', evalLoop env vars asts rules tr evs = some (tr', evs') ∧
      LoopEnd (fun x => evaluateRule (asts x.Name) env vars) rules tr evs tr' evs' := by
  induction rules generalizing tr evs with
  | nil =>
    refine ⟨tr, evs, rfl, Or.inr (Or.inr ⟨?_, by simp, rfl⟩)⟩
    intro x hx
    cases hx
  | cons rule rest ih =>
    have hrest : ∀ x ∈ rest, evaluateRule (asts x.Name) env vars ≠ none :=
      fun x hx => hf x (List.mem_cons_of_mem _ hx)
    cases hfx : evaluateRule (asts rule.Name) env vars with
    | none => exact absurd hfx (hf rule (List.mem_cons_self _ _))
    | some o =>
      cases o with
      | error e =>
        refine ⟨{ tr with ExecutionError := some { Rule := rule, Error := e } }, evs,
          by simp only [evalLoop, hfx], Or.inr (Or.inl ?_)⟩
        refine ⟨[], rule, rest, e, rfl, ?_, hfx, by simp, rfl⟩
        intro x hx
        cases hx
      | ok res =>
        obtain ⟨cost, matched⟩ := res
        cases matched with
        | true =>
          refine ⟨{ tr with MatchedRule := some rule },
            evs ++ [{ Rule := rule, Result := true, Cost := cost }],
            by simp only [evalLoop, hfx, if_true], Or.inl ?_⟩
          refine ⟨[], rule, rest, cost, rfl, ?_, hfx, by simp, rfl⟩
          intro x hx
          cases hx
        | false =>
          obtain ⟨tr', evs', hrun, hend⟩ :=
            ih tr (evs ++ [{ Rule := rule, Result := false, Cost := cost }]) hrest
          refine ⟨tr', evs', ?_, ?_⟩
          · simp only [evalLoop, hfx]
            simpa using hrun
          · rcases hend with ⟨pre, r, post, c, h1, h2, h3, h4, h5⟩ |
              ⟨pre, r, post, e, h1, h2, h3, h4, h5⟩ | ⟨h2, h4, h5⟩
            · refine Or.inl ⟨rule :: pre, r, post, c, by rw [h1]; rfl,
                allFalse_cons _ rule cost pre hfx h2, h3, ?_, h5⟩
              rw [h4, filterMap_recordOf_cons _ rule _ pre hfx]
              simp
            · refine Or.inr (Or.inl ⟨rule :: pre, r, post, e, by rw [h1]; rfl,
                allFalse_cons _ rule cost pre hfx h2, h3, ?_, h5⟩)
              rw [h4, filterMap_recordOf_cons _ rule _ pre hfx]
              simp
            · refine Or.inr (Or.inr ⟨allFalse_cons _ rule cost rest hfx h2, ?_, h5⟩)
              rw [h4, filterMap_recordOf_cons _ rule _ rest hfx]
              simp

theorem mem_filterMap_recordOf (f : Rule → Option (Except String evalResult))
    (l : List Rule) (e : Evaluation) (he : e ∈ l.filterMap (recordOf f)) :
    e.Rule ∈ l ∧ f e.Rule = some (.ok { cost := e.Cost, matched := e.Result }) := by
  obtain ⟨x, hx, hrec⟩ := List.mem_filterMap.mp he
  unfold recordOf at hrec
  cases hfx : f x with
  | none => rw [hfx] at hrec; cases hrec
  | some o =>
    cases o with
    | error m => rw [hfx] at hrec; cases hrec
    | ok res =>
      rw [hfx] at hrec
      cases hrec
      exact ⟨hx, hfx⟩

/-- The loop stops at the first rule that evaluates to `true`. -/
theorem evalLoop_match (env : Env Ast Prog) (vars : Vars) (asts : AstMap Ast)
    (pre : List Rule) (rule : Rule) (post : List Rule) (cost : Nat)
    (tr : TestResult) (evs : List Evaluation)
    (hpre : AllFalse (fun x => evaluateRule (asts x.Name) env vars) pre)
    (hrule : evaluateRule (asts rule.Name) env vars =
      some (.ok { cost := cost, matched := true })) :
    evalLoop env vars asts (pre ++ rule :: post) tr evs =
      some ({ tr with MatchedRule := some rule },
        evs ++ pre.filterMap (recordOf (fun x => evaluateRule (asts x.Name) env vars)) ++
          [{ Rule := rule, Result := true, Cost := cost }]) := by
  induction pre generalizing evs with
  | nil => simp [evalLoop, hrule]
  | cons r rest ih =>
    obtain ⟨c, hr⟩ := hpre r (List.mem_cons_self _ _)
    have hrest : AllFalse (fun x => evaluateRule (asts x.Name) env vars) rest :=
      fun x hx => hpre x (List.mem_cons_of_mem _ hx)
    dsimp only at hr
    rw [filterMap_recordOf_cons _ r _ rest hr]
    simp only [List.cons_append, evalLoop, hr]
    simp only [Bool.false_eq_true, ↓reduceIte, List.append_eq]
    rw [ih _ hrest]
    simp

/-- The loop stops at the first rule whose evaluation fails. -/
theorem evalLoop_error (env : Env Ast Prog) (vars : Vars) (asts : AstMap Ast)
    (pre : List Rule) (rule : Rule) (post : List Rule) (msg : String)
    (tr : TestResult) (evs : List Evaluation)
    (hpre : AllFalse (fun x => evaluateRule (asts x.Name) env vars) pre)
    (hrule : evaluateRule (asts rule.Name) env vars = some (.error msg)) :
    evalLoop env vars asts (pre ++ rule :: post) tr evs =
      some ({ tr with ExecutionError := some { Rule := rule, Error := msg } },
        evs ++ pre.filterMap (recordOf (fun x => evaluateRule (asts x.Name) env vars))) := by
  induction pre generalizing evs with
  | nil => simp [evalLoop, hrule]
  | cons r rest ih =>
    obtain ⟨c, hr⟩ := hpre r (List.mem_cons_self _ _)
    have hrest : AllFalse (fun x => evaluateRule (asts x.Name) env vars) rest :=
      fun x hx => hpre x (List.mem_cons_of_mem _ hx)
    dsimp only at hr
    rw [filterMap_recordOf_cons _ r _ rest hr]
    simp only [List.cons_append, evalLoop, hr]
    simp only [Bool.false_eq_true, ↓reduceIte, List.append_eq]
    rw [ih _ hrest]
    simp

/-- The loop runs to the end when every rule evaluates to `false`. -/
theorem evalLoop_allFalse (env : Env Ast Prog) (vars : Vars) (asts : AstMap Ast)
    (rules : List Rule) (tr : TestResult) (evs : List Evaluation)
    (hall : AllFalse (fun x => evaluateRule (asts x.Name) env vars) rules) :
    evalLoop env vars asts rules tr evs =
      some (tr,
        evs ++ rules.filterMap (recordOf (fun x => evaluateRule (asts x.Name) env vars))) := by
  induction rules generalizing evs with
  | nil => simp [evalLoop]
  | cons r rest ih =>
    obtain ⟨c, hr⟩ := hall r (List.mem_cons_self _ _)
    have hrest : AllFalse (fun x => evaluateRule (asts x.Name) env vars) rest :=
      fun x hx => hall x (List.mem_cons_of_mem _ hx)
    dsimp only at hr
    rw [filterMap_recordOf_cons _ r _ rest hr]
    simp only [evalLoop, hr]
    simp only [Bool.false_eq_true, ↓reduceIte]
    rw [ih _ hrest]
    simp

theorem filterMap_invalidOf_eq_nil_iff (env : Env Ast Prog) (rules : List Rule) :
    rules.filterMap (invalidOf env) = [] ↔ ∀ r ∈ rules, passes env r = true := by
  rw [List.filterMap_eq_nil_iff]
  constructor
  · intro h r hr
    exact (invalidOf_eq_none_iff env r).mp (h r hr)
  · intro h r hr
    exact (invalidOf_eq_none_iff env r).mpr (h r hr)

/-- The two branches of `testHandler`. -/
theorem testHandler_eq (env : Env Ast Prog) (payload : TestPayload) :
    testHandler env payload =
      if payload.Rules.filterMap (invalidOf env) ≠ [] then
        some { emptyResult with InvalidRules := payload.Rules.filterMap (invalidOf env) }
      else
        match evalLoop env (varsOf payload) (validate env payload.Rules).1 payload.Rules
            emptyResult [] with
        | none => none
        | some (tr, evs) => some { tr with Evaluations := evs } := by
  unfold testHandler
  rw [← validate_invalid]
  rcases hv : validate env payload.Rules with ⟨asts, inv⟩
  dsimp only
  by_cases hinv : inv = []
  · subst hinv
    simp
  · have hlen : inv.length > 0 := List.length_pos.mpr hinv
    simp [hlen, hinv, emptyResult]

/-- The gate is closed exactly when some rule is rejected. -/
theorem testHandler_of_invalid (env : Env Ast Prog) (payload : TestPayload)
    (h : ∃ rule ∈ payload.Rules, passes env rule = false) :
    payload.Rules.filterMap (invalidOf env) ≠ [] ∧
    testHandler env payload =
      some { emptyResult with InvalidRules := payload.Rules.filterMap (invalidOf env) } := by
  have hne : payload.Rules.filterMap (invalidOf env) ≠ [] := by
    intro hnil
    obtain ⟨rule, hmem, hp⟩ := h
    have := (filterMap_invalidOf_eq_nil_iff env payload.Rules).mp hnil rule hmem
    rw [hp] at this
    cases this
  refine ⟨hne, ?_⟩
  rw [testHandler_eq, if_pos hne]

/-- With every rule accepted the handler runs the second loop on the map built
by the first. -/
theorem testHandler_of_valid (env : Env Ast Prog) (payload : TestPayload)
    (hvalid : ∀ rule ∈ payload.Rules, passes env rule = true) :
    testHandler env payload =
      match evalLoop env (varsOf payload) (validate env payload.Rules).1 payload.Rules
          emptyResult [] with
      | none => none
      | some (tr, evs) => some { tr with Evaluations := evs } := by
  have hnil := (filterMap_invalidOf_eq_nil_iff env payload.Rules).mpr hvalid
  rw [testHandler_eq, hnil]
  simp

/-- With every rule accepted and a type-sound engine the handler returns a
result, and the second loop ended in one of the three ways of `LoopEnd`. -/
theorem testHandler_valid_spec (env : Env Ast Prog) (payload : TestPayload)
    (hsound : BoolSound env) (hvalid : ∀ rule ∈ payload.Rules, passes env rule = true) :
    ∃ tr evs, testHandler env payload = some { tr with Evaluations := evs } ∧
      LoopEnd (usedEval env (varsOf payload) payload.Rules) payload.Rules emptyResult []
        tr evs := by
  obtain ⟨tr, evs, hrun, hend⟩ := evalLoop_spec env (varsOf payload)
    (validate env payload.Rules).1 payload.Rules emptyResult []
    (fun x hx => usedEval_ne_none env (varsOf payload) payload.Rules hsound hvalid x hx)
  refine ⟨tr, evs, ?_, hend⟩
  rw [testHandler_of_valid env payload hvalid, hrun]

/-- What the second loop changes in `testResult`: nothing, or one of
`MatchedRule` and `ExecutionError`. -/
theorem evalLoop_result_shape (env : Env Ast Prog) (vars : Vars) (asts : AstMap Ast)
    (rules : List Rule) (tr : TestResult) (evs : List Evaluation) (tr' : TestResult)
    (evs' : List Evaluation) (h : evalLoop env vars asts rules tr evs = some (tr', evs')) :
    tr' = tr ∨ (∃ rule, tr' = { tr with MatchedRule := some rule }) ∨
      (∃ e, tr' = { tr with ExecutionError := some e }) := by
  induction rules generalizing evs with
  | nil =>
    simp only [evalLoop, Option.some.injEq, Prod.mk.injEq] at h
    exact Or.inl h.1.symm
  | cons x xs ih =>
    simp only [evalLoop] at h
    split at h
    · cases h
    · simp only [Option.some.injEq, Prod.mk.injEq] at h
      exact Or.inr (Or.inr ⟨_, h.1.symm⟩)
    · split at h
      · simp only [Option.some.injEq, Prod.mk.injEq] at h
        exact Or.inr (Or.inl ⟨_, h.1.symm⟩)
      · exact ih _ h

/-- In every result, `invalid_rules` is what the first loop collected, and at
most one of `matched_rule` and `execution_error` is set. -/
theorem testHandler_result_shape (env : Env Ast Prog) (payload : TestPayload) (r : TestResult)
    (h : testHandler env payload = some r) :
    r.InvalidRules = payload.Rules.filterMap (invalidOf env) ∧
    (r.MatchedRule = none ∨ r.ExecutionError = none) := by
  rw [testHandler_eq] at h
  by_cases hinv : payload.Rules.filterMap (invalidOf env) = []
  · rw [hinv] at h
    simp only [ne_eq, not_true_eq_false, ↓reduceIte] at h
    cases hloop : evalLoop env (varsOf payload) (validate env payload.Rules).1
        payload.Rules emptyResult [] with
    | none => rw [hloop] at h; cases h
    | some p =>
      obtain ⟨tr, evs⟩ := p
      rw [hloop] at h
      simp only [Option.some.injEq] at h
      subst h
      rw [hinv]
      rcases evalLoop_result_shape env _ _ _ _ _ _ _ hloop with h1 | ⟨rule, h1⟩ | ⟨e, h1⟩ <;>
        subst h1 <;> simp [emptyResult]
  · rw [if_pos hinv] at h
    simp only [Option.some.injEq] at h
    subst h
    exact ⟨rfl, Or.inl rfl⟩

theorem allFalse_congr (f g : Rule → Option (Except String evalResult)) (rules l : List Rule)
    (hfg : ∀ x ∈ rules, f x = g x) (hsub : ∀ x ∈ l, x ∈ rules) (h : AllFalse f l) :
    AllFalse g l := by
  intro x hx
  obtain ⟨c, hc⟩ := h x hx
  exact ⟨c, by rw [← hfg x (hsub x hx)]; exact hc⟩

theorem evalPrefix_congr (f g : Rule → Option (Except String evalResult))
    (rules l : List Rule) (hfg : ∀ x ∈ rules, f x = g x) (h : EvalPrefix f rules l) :
    EvalPrefix g rules l := by
  rcases h with ⟨pre, rule, post, c, h1, h2, h3, h4⟩ | ⟨pre, rule, post, e, h1, h2, h3, h4⟩ |
    ⟨h2, h4⟩
  · refine Or.inl ⟨pre, rule, post, c, h1, allFalse_congr f g rules pre hfg ?_ h2, ?_, h4⟩
    · intro x hx
      rw [h1]
      exact List.mem_append_left _ hx
    · rw [← hfg rule (by rw [h1]; simp)]
      exact h3
  · refine Or.inr (Or.inl ⟨pre, rule, post, e, h1, allFalse_congr f g rules pre hfg ?_ h2, ?_, h4⟩)
    · intro x hx
      rw [h1]
      exact List.mem_append_left _ hx
    · rw [← hfg rule (by rw [h1]; simp)]
      exact h3
  · exact Or.inr (Or.inr ⟨allFalse_congr f g rules rules hfg (fun _ hx => hx) h2, h4⟩)

theorem evalPrefix_isPrefix (f : Rule → Option (Except String evalResult))
    (rules l : List Rule) (h : EvalPrefix f rules l) : l <+: rules := by
  rcases h with ⟨pre, rule, post, c, h1, _, _, h4⟩ | ⟨pre, rule, post, e, h1, _, _, h4⟩ |
    ⟨_, h4⟩
  · exact ⟨post, by rw [h4, h1]; simp⟩
  · exact ⟨rule :: post, by rw [h4, h1]⟩
  · rw [h4]

/-- The rules of the records the loop leaves are the prefix of `EvalPrefix`. -/
theorem loopEnd_evalPrefix (f : Rule → Option (Except String evalResult)) (rules : List Rule)
    (tr tr' : TestResult) (evs' : List Evaluation) (h : LoopEnd f rules tr [] tr' evs') :
    EvalPrefix f rules (evs'.map (fun e => e.Rule)) := by
  rcases h with ⟨pre, rule, post, c, h1, h2, h3, h4, _⟩ | ⟨pre, rule, post, e, h1, h2, h3, h4, _⟩ |
    ⟨h2, h4, _⟩
  · refine Or.inl ⟨pre, rule, post, c, h1, h2, h3, ?_⟩
    rw [h4]
    simp [(records_of_allFalse f pre h2).1]
  · refine Or.inr (Or.inl ⟨pre, rule, post, e, h1, h2, h3, ?_⟩)
    rw [h4]
    simp [(records_of_allFalse f pre h2).1]
  · refine Or.inr (Or.inr ⟨h2, ?_⟩)
    rw [h4]
    simp [(records_of_allFalse f rules h2).1]

/-- Every record the loop leaves belongs to a rule of the list and carries the
result and the cost of that rule's evaluation. -/
theorem loopEnd_records (f : Rule → Option (Except String evalResult)) (rules : List Rule)
    (tr tr' : TestResult) (evs' : List Evaluation) (h : LoopEnd f rules tr [] tr' evs') :
    ∀ e ∈ evs', e.Rule ∈ rules ∧ f e.Rule = some (.ok { cost := e.Cost, matched := e.Result }) := by
  intro e he
  rcases h with ⟨pre, rule, post, c, h1, h2, h3, h4, _⟩ | ⟨pre, rule, post, m, h1, h2, h3, h4, _⟩ |
    ⟨h2, h4, _⟩
  · rw [h4] at he
    simp only [List.nil_append, List.mem_append, List.mem_singleton] at he
    rcases he with he | rfl
    · obtain ⟨hm, hf⟩ := mem_filterMap_recordOf f pre e he
      exact ⟨by rw [h1]; exact List.mem_append_left _ hm, hf⟩
    · exact ⟨by rw [h1]; simp, h3⟩
  · rw [h4] at he
    simp only [List.nil_append] at he
    obtain ⟨hm, hf⟩ := mem_filterMap_recordOf f pre e he
    exact ⟨by rw [h1]; exact List.mem_append_left _ hm, hf⟩
  · rw [h4] at he
    simp only [List.nil_append] at he
    exact mem_filterMap_recordOf f rules e he

theorem results_of_allFalse (f : Rule → Option (Except String evalResult)) (pre : List Rule)
    (h : AllFalse f pre) :
    (pre.filterMap (recordOf f)).map (fun e => e.Result) = List.replicate pre.length false ∧
    (pre.filterMap (recordOf f)).length = pre.length := by
  have hlen : (pre.filterMap (recordOf f)).length = pre.length := by
    have := congrArg List.length (records_of_allFalse f pre h).1
    simpa using this
  refine ⟨?_, hlen⟩
  rw [List.eq_replicate_iff]
  refine ⟨by simp [hlen], ?_⟩
  intro b hb
  obtain ⟨e, he, rfl⟩ := List.mem_map.mp hb
  exact ((records_of_allFalse f pre h).2 e he).1

/-- The result when the first rule that does not evaluate to `false` evaluates
to `true`. -/
theorem testHandler_match (env : Env Ast Prog) (payload : TestPayload)
    (hvalid : ∀ rule ∈ payload.Rules, passes env rule = true)
    (pre : List Rule) (rule : Rule) (post : List Rule) (cost : Nat)
    (h1 : payload.Rules = pre ++ rule :: post)
    (hpre : AllFalse (usedEval env (varsOf payload) payload.Rules) pre)
    (hrule : usedEval env (varsOf payload) payload.Rules rule =
      some (.ok { cost := cost, matched := true })) :
    testHandler env payload =
      some { MatchedRule := some rule, InvalidRules := [], ExecutionError := none,
             Evaluations := pre.filterMap (recordOf (usedEval env (varsOf payload) payload.Rules))
               ++ [{ Rule := rule, Result := true, Cost := cost }] } := by
  have h := evalLoop_match env (varsOf payload) (validate env payload.Rules).1 pre rule post
    cost emptyResult [] hpre hrule
  rw [← h1] at h
  rw [testHandler_of_valid env payload hvalid, h]
  simp only [emptyResult, List.nil_append]
  rfl

/-- The result when the first rule that does not evaluate to `false` fails. -/
theorem testHandler_error (env : Env Ast Prog) (payload : TestPayload)
    (hvalid : ∀ rule ∈ payload.Rules, passes env rule = true)
    (pre : List Rule) (rule : Rule) (post : List Rule) (msg : String)
    (h1 : payload.Rules = pre ++ rule :: post)
    (hpre : AllFalse (usedEval env (varsOf payload) payload.Rules) pre)
    (hrule : usedEval env (varsOf payload) payload.Rules rule = some (.error msg)) :
    testHandler env payload =
      some { MatchedRule := none, InvalidRules := [],
             ExecutionError := some { Rule := rule, Error := msg },
             Evaluations :=
               pre.filterMap (recordOf (usedEval env (varsOf payload) payload.Rules)) } := by
  have h := evalLoop_error env (varsOf payload) (validate env payload.Rules).1 pre rule post
    msg emptyResult [] hpre hrule
  rw [← h1] at h
  rw [testHandler_of_valid env payload hvalid, h]
  simp only [emptyResult, List.nil_append]
  rfl

/-- The result when every rule evaluates to `false`. -/
theorem testHandler_allFalse (env : Env Ast Prog) (payload : TestPayload)
    (hvalid : ∀ rule ∈ payload.Rules, passes env rule = true)
    (hall : AllFalse (usedEval env (varsOf payload) payload.Rules) payload.Rules) :
    testHandler env payload =
      some { MatchedRule := none, InvalidRules := [], ExecutionError := none,
             Evaluations := payload.Rules.filterMap
               (recordOf (usedEval env (varsOf payload) payload.Rules)) } := by
  have h := evalLoop_allFalse env (varsOf payload) (validate env payload.Rules).1
    payload.Rules emptyResult [] hall
  rw [testHandler_of_valid env payload hvalid, h]
  simp only [emptyResult, List.nil_append]
  rfl

/-- In a valid list the entry of `asts` under a rule's name is the checked form
of the last rule of that name. -/
theorem asts_last_same_name (env : Env Ast Prog) (rules : List Rule)
    (hvalid : ∀ rule ∈ rules, passes env rule = true) (rule : Rule) (hmem : rule ∈ rules) :
    ∃ pre last post c, rules = pre ++ last :: post ∧ last.Name = rule.Name ∧
      (∀ x ∈ post, x.Name ≠ rule.Name) ∧ checkRule last env = .ok c ∧
      (validate env rules).1 rule.Name = some c := by
  obtain ⟨c, hc⟩ := lastChecked_isSome_of_mem env rules rule hmem (hvalid rule hmem)
  obtain ⟨pre, last, post, h1, h2, h3, h4⟩ := lastChecked_eq_some env rules rule.Name c hc
  refine ⟨pre, last, post, c, h1, h2, ?_, h3, by rw [validate_asts, hc]⟩
  intro x hx hname
  have hpass := hvalid x (by rw [h1]; exact List.mem_append_right _ (List.mem_cons_of_mem _ hx))
  rw [h4 x hx hname] at hpass
  cases hpass

/-- On two strings `ipInRange` returns an error value or a boolean. -/
theorem ipInRange_str_cases (a c : String) :
    (∃ msg, ipInRange (.str a) (.str c) = .err msg) ∨
    (∃ b, ipInRange (.str a) (.str c) = .bool b) := by
  unfold ipInRange
  dsimp only
  cases GoNet.ParseIP a with
  | none => exact Or.inl ⟨_, rfl⟩
  | some ip =>
    dsimp only
    cases GoNet.ParseCIDR c with
    | none => exact Or.inl ⟨_, rfl⟩
    | some pr => exact Or.inr ⟨_, rfl⟩

/-- The small engine is type-sound for boolean expressions. -/
theorem demoEnv_boolSound : BoolSound demoEnv := by
  intro ast checked program vars out cost _ hty hp he
  have hprog : program = checked := by
    simp only [demoEnv, Except.ok.injEq] at hp
    exact hp.symm
  subst hprog
  cases program with
  | lit b =>
    simp only [demoEnv, demoEval, Except.ok.injEq, Prod.mk.injEq] at he
    exact ⟨b, he.1.symm⟩
  | method => simp [demoEnv, DemoExpr.outputType] at hty
  | ipCheck range =>
    simp only [demoEnv, demoEval] at he
    rcases ipInRange_str_cases vars.origin.Ip range with ⟨msg, hm⟩ | ⟨b, hb⟩
    · rw [hm] at he
      simp [evalReturn] at he
    · rw [hb] at he
      simp only [evalReturn, Except.ok.injEq, Prod.mk.injEq] at he
      exact ⟨b, he.1.symm⟩
  | undeclared => simp [demoEnv, DemoExpr.outputType] at hty

end EngineLemmas

section SoundnessLemmas

variable {Ast Prog : Type}

/-- With a type-sound engine, accepted rules whose own expression neither
evaluates to `true` nor fails evaluate to `false`. -/
theorem allFalse_of_not_true_not_error (env : Env Ast Prog) (vars : Vars) (l : List Rule)
    (hsound : BoolSound env) (hvalid : ∀ x ∈ l, passes env x = true)
    (hnottrue : ∀ x ∈ l, ∀ cost, ownEval env vars x ≠ some (.ok { cost := cost, matched := true }))
    (hnofail : ∀ x ∈ l, ∀ msg, ownEval env vars x ≠ some (.error msg)) :
    AllFalse (ownEval env vars) l := by
  intro x hx
  obtain ⟨c, hc⟩ := (passes_iff env x).mp (hvalid x hx)
  have hne : ownEval env vars x ≠ none := by
    unfold ownEval
    rw [hc]
    exact evaluateRule_ne_none env vars x c hsound hc
  cases ho : ownEval env vars x with
  | none => exact absurd ho hne
  | some o =>
    cases o with
    | error msg => exact absurd ho (hnofail x hx msg)
    | ok res =>
      obtain ⟨cost, matched⟩ := res
      cases matched with
      | true => exact absurd ho (hnottrue x hx cost)
      | false => exact ⟨cost, rfl⟩

end SoundnessLemmas

/-! ## Lemmas on the `net` functions -/

namespace GoNet

theorem length_cidrMaskLoop (l n : Nat) : (cidrMaskLoop l n).length = l := by
  induction l generalizing n with
  | zero => rfl
  | succ k ih =>
    unfold cidrMaskLoop
    split <;> simp [ih]

theorem length_IPv4 (a b c d : Nat) : (IPv4 a b c d).length = 16 := rfl

theorem take_IPv4 (a b c d : Nat) : (IPv4 a b c d).take 12 = v4InV6Prefix := rfl

theorem parseIPv4_shape (s : List Char) (ip : List Nat) (h : parseIPv4 s = some ip) :
    ip.length = 16 ∧ ip.take 12 = v4InV6Prefix := by
  unfold parseIPv4 at h
  split at h
  · cases h
  · split at h
    · cases h
    · simp only [Option.some.injEq] at h
      subst h
      exact ⟨rfl, rfl⟩

theorem parseIPv6Loop_length (fuel : Nat) (st st' : V6State)
    (h : parseIPv6Loop fuel st = some st') : st'.ip.length = st.ip.length := by
  induction fuel generalizing st with
  | zero =>
    simp only [parseIPv6Loop, Option.some.injEq] at h
    rw [← h]
  | succ k ih =>
    unfold parseIPv6Loop at h
    split at h
    · split at h
      split at h
      · cases h
      · split at h
        · split at h
          · cases h
          · split at h
            · cases h
            · split at h
              · cases h
              · simp only [Option.some.injEq] at h
                rw [← h]
                simp
        · dsimp only at h
          split at h
          · simp only [Option.some.injEq] at h
            rw [← h]
            simp
          · split at h
            · cases h
            · split at h
              · split at h
                · cases h
                · split at h
                  · simp only [Option.some.injEq] at h
                    rw [← h]
                    simp
                  · rw [ih _ h]
                    simp
              · rw [ih _ h]
                simp
    · simp only [Option.some.injEq] at h
      rw [← h]

theorem foldl_length_of_step {α : Type} (f : List Nat → α → List Nat)
    (hf : ∀ ip t, (f ip t).length = ip.length) (l : List α) (ip : List Nat) :
    (l.foldl f ip).length = ip.length := by
  induction l generalizing ip with
  | nil => rfl
  | cons x xs ih => rw [List.foldl_cons, ih, hf]

theorem parseIPv6Tail_length (ellipsis : Option Nat) (s : List Char) (ip : List Nat)
    (h : parseIPv6Tail ellipsis s = some ip) : ip.length = 16 := by
  unfold parseIPv6Tail at h
  split at h
  · cases h
  · rename_i st hst
    have hlen := parseIPv6Loop_length _ _ _ hst
    simp only [List.length_replicate] at hlen
    split at h
    · cases h
    · split at h
      · split at h
        · cases h
        · simp only [Option.some.injEq] at h
          rw [← h, foldl_length_of_step _ (fun ip t => by simp),
            foldl_length_of_step _ (fun ip t => by simp), hlen]
          rfl
      · split at h
        · cases h
        · simp only [Option.some.injEq] at h
          rw [← h, hlen]
          rfl

theorem parseIPv6_length (s : List Char) (ip : List Nat) (h : parseIPv6 s = some ip) :
    ip.length = 16 := by
  unfold parseIPv6 at h
  split at h
  · dsimp only at h
    split at h
    · simp only [Option.some.injEq] at h
      rw [← h]
      rfl
    · exact parseIPv6Tail_length _ _ _ h
  · exact parseIPv6Tail_length _ _ _ h

theorem parseIPScan_length (s t : List Char) (ip : List Nat) (h : parseIPScan s t = some ip) :
    ip.length = 16 := by
  induction t with
  | nil => cases h
  | cons c cs ih =>
    unfold parseIPScan at h
    split at h
    · exact (parseIPv4_shape s ip h).1
    · split at h
      · exact parseIPv6_length s ip h
      · exact ih h

/-- `ParseIP` returns addresses in 16-byte form. -/
theorem ParseIP_length (s : String) (ip : List Nat) (h : ParseIP s = some ip) :
    ip.length = 16 :=
  parseIPScan_length _ _ ip h


theorem Mask_v4 (ip m : List Nat) (hip : ip.length = 16) (hpre : ip.take 12 = v4InV6Prefix)
    (hm : m.length = 4) : Mask ip m = some (andBytes (ip.drop 12) m) := by
  unfold Mask
  simp [hip, hm, hpre, IPv4len, IPv6len, andBytes]

theorem Mask_v6 (ip m : List Nat) (hip : ip.length = 16) (hm : m.length = 16) :
    Mask ip m = some (andBytes ip m) := by
  unfold Mask
  simp [hip, hm, IPv4len, IPv6len, andBytes]

theorem CIDRMask_v4 (n : Nat) (m : List Nat) (h : CIDRMask n (8 * IPv4len) = some m) :
    n ≤ 32 ∧ m = cidrMaskLoop 4 n := by
  unfold CIDRMask at h
  simp only [IPv4len, IPv6len] at h
  split at h
  · cases h
  · split at h
    · cases h
    · rename_i hle
      simp only [Option.some.injEq] at h
      exact ⟨by omega, h.symm⟩

theorem CIDRMask_v6 (n : Nat) (m : List Nat) (h : CIDRMask n (8 * IPv6len) = some m) :
    n ≤ 128 ∧ m = cidrMaskLoop 16 n := by
  unfold CIDRMask at h
  simp only [IPv4len, IPv6len] at h
  split at h
  · cases h
  · split at h
    · cases h
    · rename_i hle
      simp only [Option.some.injEq] at h
      exact ⟨by omega, h.symm⟩

/-- What `ParseCIDR` returns: a 16-byte address and either a 4-byte network
number with a 4-byte prefix mask, for a dotted address, or a 16-byte network
number with a 16-byte prefix mask; the network number is the address under the
mask. -/
theorem ParseCIDR_shape (s : String) (ip0 : List Nat) (net : IPNet)
    (h : ParseCIDR s = some (ip0, net)) :
    ip0.length = 16 ∧
    ((∃ ones, ones ≤ 32 ∧ net.Mask = cidrMaskLoop 4 ones ∧
        net.IP = andBytes (ip0.drop 12) net.Mask) ∨
     (∃ ones, ones ≤ 128 ∧ net.Mask = cidrMaskLoop 16 ones ∧
        net.IP = andBytes ip0 net.Mask)) := by
  unfold ParseCIDR at h
  dsimp only at h
  split at h
  · cases h
  · cases h4 : parseIPv4 (List.take (List.indexOf '/' s.toList) s.toList) with
    | some ip =>
      rw [h4] at h
      dsimp only at h
      obtain ⟨hlen, hpre⟩ := parseIPv4_shape _ _ h4
      split at h
      · cases h
      · rename_i hcond
        split at h
        · cases h
        · rename_i m hm
          simp only [Option.some.injEq, Prod.mk.injEq] at h
          obtain ⟨h1, h2⟩ := h
          subst h1
          obtain ⟨hn, hmm⟩ := CIDRMask_v4 _ _ hm
          have hml : m.length = 4 := by rw [hmm, length_cidrMaskLoop]
          rw [Mask_v4 ip m hlen hpre hml] at h2
          subst h2
          exact ⟨hlen, Or.inl ⟨_, hn, hmm, rfl⟩⟩
    | none =>
      rw [h4] at h
      dsimp only at h
      split at h
      · cases h
      · rename_i ip h6
        have hlen := parseIPv6_length _ _ h6
        split at h
        · cases h
        · split at h
          · cases h
          · rename_i m hm
            simp only [Option.some.injEq, Prod.mk.injEq] at h
            obtain ⟨h1, h2⟩ := h
            subst h1
            obtain ⟨hn, hmm⟩ := CIDRMask_v6 _ _ hm
            have hml : m.length = 16 := by rw [hmm, length_cidrMaskLoop]
            rw [Mask_v6 ip m hlen hml] at h2
            subst h2
            exact ⟨hlen, Or.inr ⟨_, hn, hmm, rfl⟩⟩


theorem land_land_self (a b : Nat) : (a &&& b) &&& b = a &&& b := by
  rw [Nat.land_assoc, Nat.and_self]

/-- The loop of `Contains` on a network number that is already masked: it
compares the address under the mask with the network number. -/
theorem all_range_masked (l : Nat) (x y m : List Nat) (hx : x.length = l) (hy : y.length = l)
    (hm : m.length = l) :
    (List.range l).all (fun i =>
        (andBytes y m).getD i 0 &&& m.getD i 0 == x.getD i 0 &&& m.getD i 0) = true ↔
      andBytes x m = andBytes y m := by
  have hlx : (andBytes x m).length = l := by simp [andBytes, hx, hm]
  have hly : (andBytes y m).length = l := by simp [andBytes, hy, hm]
  simp only [List.all_eq_true, List.mem_range, beq_iff_eq]
  constructor
  · intro h
    apply List.ext_getElem (by rw [hlx, hly])
    intro i h1 h2
    have hi : i < l := by rw [hlx] at h1; exact h1
    have h3 := h i hi
    rw [List.getD_eq_getElem _ 0 (by rw [hly]; exact hi),
      List.getD_eq_getElem _ 0 (by rw [hm]; exact hi),
      List.getD_eq_getElem _ 0 (by rw [hx]; exact hi)] at h3
    simp only [andBytes, List.getElem_zipWith] at h3 ⊢
    rw [land_land_self] at h3
    exact h3.symm
  · intro h i hi
    rw [List.getD_eq_getElem _ 0 (by rw [hly]; exact hi),
      List.getD_eq_getElem _ 0 (by rw [hm]; exact hi),
      List.getD_eq_getElem _ 0 (by rw [hx]; exact hi)]
    have hbx : i < (andBytes x m).length := by rw [hlx]; exact hi
    have hby : i < (andBytes y m).length := by rw [hly]; exact hi
    have h3 : (andBytes x m)[i] = (andBytes y m)[i] := by
      simp only [h]
    simp only [andBytes, List.getElem_zipWith] at h3 ⊢
    rw [land_land_self]
    exact h3.symm

theorem To4_of_length_four (ip : List Nat) (h : ip.length = 4) : To4 ip = some ip := by
  simp [To4, h, IPv4len]

theorem To4_length (ip x : List Nat) (hip : ip.length = 16) (h : To4 ip = some x) :
    x = ip.drop 12 ∧ x.length = 4 := by
  unfold To4 at h
  simp only [hip, IPv4len, IPv6len] at h
  split at h
  · rename_i hc
    simp at hc
  · split at h
    · simp only [Option.some.injEq] at h
      subst h
      have : (List.drop 12 ip).length = 4 := by simp [hip]
      refine ⟨?_, by simp [hip]⟩
      exact List.take_of_length_le (by omega)
    · cases h


theorem length_andBytes (a m : List Nat) (h : a.length = m.length) :
    (andBytes a m).length = m.length := by
  simp [andBytes, h]

/-- `Contains` on a network whose number is masked: the normal form of the
address has the length of the network number and gives it under the mask. -/
theorem Contains_core (net : IPNet) (ip y m : List Nat)
    (hnm : networkNumberAndMask net = (andBytes y m, m)) (hy : y.length = m.length) :
    net.Contains ip = true ↔
      (normalForm ip).length = m.length ∧ andBytes (normalForm ip) m = andBytes y m := by
  unfold IPNet.Contains
  rw [hnm]
  dsimp only
  have hnf : (match To4 ip with
      | some x => x
      | none => ip) = normalForm ip := rfl
  rw [hnf, length_andBytes y m hy]
  by_cases hl : (normalForm ip).length = m.length
  · have hne : ((normalForm ip).length != m.length) = false := by simp [hl]
    rw [hne]
    simp only [Bool.false_eq_true, ↓reduceIte, hl, true_and]
    rw [← hl]
    exact all_range_masked _ (normalForm ip) y m rfl (by rw [hy, hl]) hl.symm
  · have hne : ((normalForm ip).length != m.length) = true := by simp [hl]
    rw [hne]
    simp [hl]

/-- `IPNet.Contains` is prefix-masking containment with matching family, on what
`ParseIP` and `ParseCIDR` return. -/
theorem Contains_iff_InNetwork (net : IPNet) (ip : List Nat) (hip : ip.length = 16)
    (hnet : (∃ y, y.length = 4 ∧ net.Mask.length = 4 ∧ net.IP = andBytes y net.Mask) ∨
      (∃ y, y.length = 16 ∧ net.Mask.length = 16 ∧ net.IP = andBytes y net.Mask)) :
    net.Contains ip = true ↔ InNetwork net ip := by
  have hnfip : (normalForm ip).length = 4 ↔ isIPv4 ip = true := by
    unfold normalForm isIPv4
    cases hto : To4 ip with
    | none => simp [hip]
    | some x => simp [(To4_length ip x hip hto).2]
  have hnfip' : (normalForm ip).length = 16 ↔ isIPv4 ip = false := by
    unfold normalForm isIPv4
    cases hto : To4 ip with
    | none => simp [hip]
    | some x => simp [(To4_length ip x hip hto).2]
  rcases hnet with ⟨y, hy, hm, hnip⟩ | ⟨y, hy, hm, hnip⟩
  · have hlen : net.IP.length = 4 := by rw [hnip, length_andBytes y _ (by rw [hy, hm]), hm]
    have hto := To4_of_length_four net.IP hlen
    have hnm : networkNumberAndMask net = (andBytes y net.Mask, net.Mask) := by
      have hnm' : networkNumberAndMask net = (net.IP, net.Mask) := by
        unfold networkNumberAndMask
        rw [hto]
        simp [hm, hlen, IPv4len, IPv6len]
      rw [hnm', ← hnip]
    rw [Contains_core net ip y net.Mask hnm (by rw [hy, hm])]
    unfold InNetwork
    have h1 : isIPv4 net.IP = true := by simp [isIPv4, hto]
    have h2 : normalForm net.IP = net.IP := by simp [normalForm, hto]
    have h3 : normalMask net = net.Mask := by simp [normalMask, hm, IPv6len]
    rw [h1, h2, h3, hm, hnfip, ← hnip]
  · have hlen : net.IP.length = 16 := by rw [hnip, length_andBytes y _ (by rw [hy, hm]), hm]
    cases hto : To4 net.IP with
    | some nn =>
      obtain ⟨hnn, hnnlen⟩ := To4_length net.IP nn hlen hto
      have hdrop : nn = andBytes (y.drop 12) (net.Mask.drop 12) := by
        rw [hnn, hnip]
        simp [andBytes, List.drop_zipWith]
      have hnm : networkNumberAndMask net =
          (andBytes (y.drop 12) (net.Mask.drop 12), net.Mask.drop 12) := by
        have hnm' : networkNumberAndMask net = (nn, net.Mask.drop 12) := by
          unfold networkNumberAndMask
          rw [hto]
          simp [hm, hnnlen, IPv4len, IPv6len]
        rw [hnm', ← hdrop]
      rw [Contains_core net ip (y.drop 12) (net.Mask.drop 12) hnm (by simp [hy, hm])]
      unfold InNetwork
      have h1 : isIPv4 net.IP = true := by simp [isIPv4, hto]
      have h2 : normalForm net.IP = nn := by simp [normalForm, hto]
      have h3 : normalMask net = net.Mask.drop 12 := by simp [normalMask, h1, hm, IPv6len]
      have h4 : (net.Mask.drop 12).length = 4 := by simp [hm]
      rw [h1, h2, h3, h4, hnfip, ← hdrop]
    | none =>
      have hnm : networkNumberAndMask net = (andBytes y net.Mask, net.Mask) := by
        have hnm' : networkNumberAndMask net = (net.IP, net.Mask) := by
          unfold networkNumberAndMask
          rw [hto]
          simp [hm, hlen, IPv4len, IPv6len]
        rw [hnm', ← hnip]
      rw [Contains_core net ip y net.Mask hnm (by rw [hy, hm])]
      unfold InNetwork
      have h1 : isIPv4 net.IP = false := by simp [isIPv4, hto]
      have h2 : normalForm net.IP = net.IP := by simp [normalForm, hto]
      have h3 : normalMask net = net.Mask := by simp [normalMask, h1]
      rw [h1, h2, h3, hm, hnfip', ← hnip]

/-- The binding on two strings that parse: a boolean, `true` exactly for
prefix-masking containment with matching family. -/
theorem ParseCIDR_Contains (a c : String) (ip ip0 : List Nat) (net : IPNet)
    (ha : ParseIP a = some ip) (hc : ParseCIDR c = some (ip0, net)) :
    net.Contains ip = true ↔ InNetwork net ip := by
  have hip := ParseIP_length a ip ha
  obtain ⟨hlen0, hshape⟩ := ParseCIDR_shape c ip0 net hc
  apply Contains_iff_InNetwork net ip hip
  rcases hshape with ⟨n, _, hm, hnip⟩ | ⟨n, _, hm, hnip⟩
  · have hml : net.Mask.length = 4 := by rw [hm, length_cidrMaskLoop]
    exact Or.inl ⟨ip0.drop 12, by simp [hlen0], hml, hnip⟩
  · have hml : net.Mask.length = 16 := by rw [hm, length_cidrMaskLoop]
    exact Or.inr ⟨ip0, hlen0, hml, hnip⟩

end GoNet

/-! ## Further facts on the handler and the binding -/

section HandlerFacts

variable {Ast Prog : Type}

/-- For a valid rule list the rules of `evaluations` are a prefix of the input
list; when the names are pairwise distinct it ends with the first rule whose
own expression evaluates to `true`, or before the first rule whose own
expression fails, or is the whole list. -/
theorem testHandler_evaluations_prefix (env : Env Ast Prog) (payload : TestPayload)
    (hsound : BoolSound env) (hvalid : ∀ rule ∈ payload.Rules, passes env rule = true) :
    ∃ r, testHandler env payload = some r ∧
      r.Evaluations.map (fun e => e.Rule) <+: payload.Rules ∧
      ((payload.Rules.map (fun rule => rule.Name)).Nodup →
        EvalPrefix (ownEval env (varsOf payload)) payload.Rules
          (r.Evaluations.map (fun e => e.Rule))) := by
  obtain ⟨tr, evs, hrun, hend⟩ := testHandler_valid_spec env payload hsound hvalid
  have hpre := loopEnd_evalPrefix _ _ _ _ _ hend
  refine ⟨_, hrun, evalPrefix_isPrefix _ _ _ hpre, fun hnd => ?_⟩
  exact evalPrefix_congr _ _ _ _
    (fun x hx => usedEval_eq_ownEval env (varsOf payload) payload.Rules hnd hvalid x hx) hpre

/-- On two strings the binding returns an error value exactly when the first
does not parse as an IP address or the second does not parse as a CIDR
network. -/
theorem ipInRange_err_iff (a c : String) :
    (∃ msg, ipInRange (.str a) (.str c) = .err msg) ↔
      (GoNet.ParseIP a = none ∨ GoNet.ParseCIDR c = none) := by
  unfold ipInRange
  dsimp only
  cases GoNet.ParseIP a with
  | none => simp [NewErr]
  | some ip =>
    dsimp only
    cases GoNet.ParseCIDR c with
    | none => simp [NewErr]
    | some pr => simp

/-- The text of the error value: the message, formatted once more. -/
theorem ipInRange_error_text (a c : String) :
    (GoNet.ParseIP a = none →
      ipInRange (.str a) (.str c) = .err (GoFmt.Sprintf (a ++ " is not a valid ip"))) ∧
    (GoNet.ParseIP a ≠ none → GoNet.ParseCIDR c = none →
      ipInRange (.str a) (.str c) = .err (GoFmt.Sprintf (c ++ " is not a valid range"))) := by
  refine ⟨?_, ?_⟩
  · intro ha
    simp [ipInRange, ha, Val.format, NewErr]
  · intro ha hc
    cases hip : GoNet.ParseIP a with
    | none => exact absurd hip ha
    | some ip => simp [ipInRange, hip, hc, Val.format, NewErr]

/-- A format without a percent sign is left unchanged. -/
theorem Sprintf_of_no_percent (s : String) (h : ∀ ch ∈ s.toList, ch ≠ '%') :
    GoFmt.Sprintf s = s := by
  have htake : s.toList.takeWhile (fun c => c != '%') = s.toList := by
    rw [List.takeWhile_eq_self_iff]
    intro ch hch
    simpa using h ch hch
  have hdrop : s.toList.dropWhile (fun c => c != '%') = [] := by
    rw [List.dropWhile_eq_nil_iff]
    intro ch hch
    simpa using h ch hch
  unfold GoFmt.Sprintf
  simp only [GoFmt.doPrintfLoop, htake, hdrop, List.nil_append]
  rfl

end HandlerFacts

/-! ## The claims -/

section Claims

variable {Ast Prog : Type}

/-- C1, as stated, fails on the empty rule list: the handler returns the empty
result, in which `invalid_rules` is empty although `evaluations` is empty and
neither `matched_rule` nor `execution_error` is set. -/
theorem C1_empty_list_counterexample :
    testHandler demoEnv (demoPayload [] "9.9.9.5") = some emptyResult ∧
    ¬ (emptyResult.InvalidRules ≠ [] ↔
        (emptyResult.Evaluations = [] ∧ emptyResult.MatchedRule = none ∧
          emptyResult.ExecutionError = none)) := by
  decide

/-- C1, amended. For every rule list, request and origin the handler returns a
result in which: if `invalid_rules` is non-empty then `evaluations` is empty and
`matched_rule` and `execution_error` are unset; conversely, for a non-empty rule
list, if `evaluations` is empty and both are unset then `invalid_rules` is
non-empty; and for the empty rule list all four are empty or unset. -/
theorem C1_invalid_rules_iff_no_evaluation (env : Env Ast Prog) (payload : TestPayload)
    (hsound : BoolSound env) :
    ∃ r, testHandler env payload = some r ∧
      (r.InvalidRules ≠ [] →
        r.Evaluations = [] ∧ r.MatchedRule = none ∧ r.ExecutionError = none) ∧
      (payload.Rules ≠ [] →
        (r.Evaluations = [] ∧ r.MatchedRule = none ∧ r.ExecutionError = none) →
        r.InvalidRules ≠ []) ∧
      (payload.Rules = [] →
        r.InvalidRules = [] ∧ r.Evaluations = [] ∧ r.MatchedRule = none ∧
          r.ExecutionError = none) := by
  by_cases hvalid : ∀ rule ∈ payload.Rules, passes env rule = true
  · obtain ⟨tr, evs, hrun, hend⟩ := testHandler_valid_spec env payload hsound hvalid
    refine ⟨_, hrun, ?_⟩
    rcases hend with ⟨pre, rule, post, c, h1, _, _, _, h5⟩ |
      ⟨pre, rule, post, e, h1, _, _, _, h5⟩ | ⟨h2, h4, h5⟩
    · subst h5
      refine ⟨fun h => absurd rfl h, fun _ h => ?_, fun h => ?_⟩
      · exact absurd h.2.1 (by simp)
      · rw [h] at h1
        simp at h1
    · subst h5
      refine ⟨fun h => absurd rfl h, fun _ h => ?_, fun h => ?_⟩
      · exact absurd h.2.2 (by simp)
      · rw [h] at h1
        simp at h1
    · subst h5
      refine ⟨fun h => absurd rfl h, fun hne h => ?_, fun h => ?_⟩
      · exfalso
        have hev : evs = [] := h.1
        cases hrules : payload.Rules with
        | nil => exact hne hrules
        | cons x xs =>
          rw [hrules] at h2 h4
          obtain ⟨cost, hx⟩ := h2 x (List.mem_cons_self _ _)
          rw [filterMap_recordOf_cons _ x _ xs hx, hev] at h4
          simp at h4
      · rw [h] at h4
        simp only [List.filterMap_nil, List.append_nil] at h4
        exact ⟨rfl, h4, rfl, rfl⟩
  · have hex : ∃ rule ∈ payload.Rules, passes env rule = false := by
      by_contra hno
      apply hvalid
      intro rule hmem
      cases hp : passes env rule with
      | true => rfl
      | false => exact absurd ⟨rule, hmem, hp⟩ hno
    obtain ⟨hne, hrun⟩ := testHandler_of_invalid env payload hex
    refine ⟨_, hrun, fun _ => ⟨rfl, rfl, rfl⟩, fun _ _ => hne, fun h => ?_⟩
    obtain ⟨rule, hmem, _⟩ := hex
    rw [h] at hmem
    cases hmem

/-- C1, amended, on a submission of three rules to the small engine. -/
theorem C1_invalid_rules_iff_no_evaluation_witness :
    ∃ r, testHandler demoEnv
        (demoPayload [mkRule "R1" "false", mkRule "R2" "true", mkRule "R3" "true"] "9.9.9.5")
        = some r ∧
      (r.InvalidRules ≠ [] →
        r.Evaluations = [] ∧ r.MatchedRule = none ∧ r.ExecutionError = none) ∧
      ((demoPayload [mkRule "R1" "false", mkRule "R2" "true", mkRule "R3" "true"]
          "9.9.9.5").Rules ≠ [] →
        (r.Evaluations = [] ∧ r.MatchedRule = none ∧ r.ExecutionError = none) →
        r.InvalidRules ≠ []) ∧
      ((demoPayload [mkRule "R1" "false", mkRule "R2" "true", mkRule "R3" "true"]
          "9.9.9.5").Rules = [] →
        r.InvalidRules = [] ∧ r.Evaluations = [] ∧ r.MatchedRule = none ∧
          r.ExecutionError = none) :=
  C1_invalid_rules_iff_no_evaluation demoEnv
    (demoPayload [mkRule "R1" "false", mkRule "R2" "true", mkRule "R3" "true"] "9.9.9.5")
    demoEnv_boolSound

/-- C2. All-or-nothing gate: if at least one rule fails `checkRule`, the handler
returns a result with non-empty `invalid_rules`, empty `evaluations`, and
`matched_rule` and `execution_error` unset; if every rule passes `checkRule`,
every result has empty `invalid_rules`, and with a type-sound engine the handler
returns such a result. -/
theorem C2_all_or_nothing_gate (env : Env Ast Prog) (payload : TestPayload) :
    ((∃ rule ∈ payload.Rules, passes env rule = false) →
      ∃ r, testHandler env payload = some r ∧ r.InvalidRules ≠ [] ∧
        r.Evaluations = [] ∧ r.MatchedRule = none ∧ r.ExecutionError = none) ∧
    ((∀ rule ∈ payload.Rules, passes env rule = true) →
      (∀ r, testHandler env payload = some r → r.InvalidRules = []) ∧
      (BoolSound env → ∃ r, testHandler env payload = some r ∧ r.InvalidRules = [])) := by
  refine ⟨fun hex => ?_, fun hvalid => ?_⟩
  · obtain ⟨hne, hrun⟩ := testHandler_of_invalid env payload hex
    exact ⟨_, hrun, hne, rfl, rfl, rfl⟩
  · have hall : ∀ r, testHandler env payload = some r → r.InvalidRules = [] := by
      intro r hr
      rw [(testHandler_result_shape env payload r hr).1]
      exact (filterMap_invalidOf_eq_nil_iff env payload.Rules).mpr hvalid
    refine ⟨hall, fun hsound => ?_⟩
    obtain ⟨tr, evs, hrun, _⟩ := testHandler_valid_spec env payload hsound hvalid
    exact ⟨_, hrun, hall _ hrun⟩

/-- C2 on two submissions to the small engine: one with a rule of type string
after a rule that would match, one with valid rules only. -/
theorem C2_all_or_nothing_gate_witness :
    (∃ r, testHandler demoEnv
        (demoPayload [mkRule "R1" "true", mkRule "m" "request.method"] "9.9.9.5") = some r ∧
      r.InvalidRules ≠ [] ∧ r.Evaluations = [] ∧ r.MatchedRule = none ∧
        r.ExecutionError = none) ∧
    (∃ r, testHandler demoEnv
        (demoPayload [mkRule "R1" "false", mkRule "R2" "true"] "9.9.9.5") = some r ∧
      r.InvalidRules = []) :=
  ⟨(C2_all_or_nothing_gate demoEnv
      (demoPayload [mkRule "R1" "true", mkRule "m" "request.method"] "9.9.9.5")).1
      ⟨mkRule "m" "request.method", by decide, by decide⟩,
   ((C2_all_or_nothing_gate demoEnv
      (demoPayload [mkRule "R1" "false", mkRule "R2" "true"] "9.9.9.5")).2
      (by decide)).2 demoEnv_boolSound⟩

/-- C3. At the failing input, two accepted rules of one name, the first with the
expression `false` and the second with `true`: the own expression of the first
rule evaluates to `false` and that of the second to `true`, so the prefix of
the claim is both rules; the handler evaluates the first rule only, with the
expression of the second rule, which overwrote it in `asts`, records the result
`true` for it and reports it as matched. -/
theorem C3_same_name_failing_input :
    (∀ rule ∈ sameNameRules, passes demoEnv rule = true) ∧
    testHandler demoEnv (demoPayload sameNameRules "9.9.9.5") =
      some { MatchedRule := some (mkRule "n" "false"), InvalidRules := [],
             ExecutionError := none,
             Evaluations := [{ Rule := mkRule "n" "false", Result := true, Cost := 1 }] } ∧
    ¬ EvalPrefix (ownEval demoEnv (varsOf (demoPayload sameNameRules "9.9.9.5")))
        sameNameRules [mkRule "n" "false"] := by
  refine ⟨by decide, by decide, ?_⟩
  rintro (⟨pre, rule, post, c, _, _, h3, h4⟩ | ⟨pre, rule, post, e, h1, _, h3, h4⟩ | ⟨_, h4⟩)
  · cases pre with
    | nil =>
      simp only [List.nil_append, List.cons.injEq, and_true] at h4
      subst h4
      have hown : ownEval demoEnv (varsOf (demoPayload sameNameRules "9.9.9.5"))
          (mkRule "n" "false") = some (.ok { cost := 1, matched := false }) := by rfl
      rw [hown] at h3
      simp at h3
    | cons x xs =>
      simp at h4
  · subst h4
    simp only [sameNameRules, List.singleton_append, List.cons.injEq, true_and] at h1
    obtain ⟨h1, _⟩ := h1
    subst h1
    have hown : ownEval demoEnv (varsOf (demoPayload sameNameRules "9.9.9.5"))
        (mkRule "n" "true") = some (.ok { cost := 1, matched := true }) := by rfl
    rw [hown] at h3
    simp at h3
  · revert h4
    decide

/-- C4. First-match-wins: for every valid rule list with pairwise distinct names
(and a type-sound engine), if a rule's own expression evaluates to `true`, and
before it no rule's own expression evaluates to `true` and none fails, then
`matched_rule` is that rule, no `execution_error` is set, and `evaluations` has
exactly one entry per rule up to and including that rule, in order, all with
result `false` but the last, which has result `true`; if no rule evaluates to
`true` and none fails, `matched_rule` is unset and `evaluations` has one entry
per rule of the list, in order. -/
theorem C4_first_match_wins (env : Env Ast Prog) (payload : TestPayload)
    (hsound : BoolSound env)
    (hvalid : ∀ rule ∈ payload.Rules, passes env rule = true)
    (hnodup : (payload.Rules.map (fun rule => rule.Name)).Nodup) :
    (∀ pre rule post cost, payload.Rules = pre ++ rule :: post →
      (∀ x ∈ pre, ∀ k,
        ownEval env (varsOf payload) x ≠ some (.ok { cost := k, matched := true })) →
      (∀ x ∈ pre, ∀ msg, ownEval env (varsOf payload) x ≠ some (.error msg)) →
      ownEval env (varsOf payload) rule = some (.ok { cost := cost, matched := true }) →
      ∃ r, testHandler env payload = some r ∧ r.MatchedRule = some rule ∧
        r.ExecutionError = none ∧ r.InvalidRules = [] ∧
        r.Evaluations.map (fun e => e.Rule) = pre ++ [rule] ∧
        r.Evaluations.length = pre.length + 1 ∧
        r.Evaluations.map (fun e => e.Result) = List.replicate pre.length false ++ [true]) ∧
    ((∀ x ∈ payload.Rules, ∀ k,
        ownEval env (varsOf payload) x ≠ some (.ok { cost := k, matched := true })) →
      (∀ x ∈ payload.Rules, ∀ msg, ownEval env (varsOf payload) x ≠ some (.error msg)) →
      ∃ r, testHandler env payload = some r ∧ r.MatchedRule = none ∧
        r.ExecutionError = none ∧ r.InvalidRules = [] ∧
        r.Evaluations.map (fun e => e.Rule) = payload.Rules ∧
        r.Evaluations.map (fun e => e.Result) =
          List.replicate payload.Rules.length false) := by
  have hfg : ∀ x ∈ payload.Rules,
      ownEval env (varsOf payload) x = usedEval env (varsOf payload) payload.Rules x :=
    fun x hx => (usedEval_eq_ownEval env (varsOf payload) payload.Rules hnodup hvalid x hx).symm
  refine ⟨?_, ?_⟩
  · intro pre rule post cost h1 hnottrue hnofail hrule
    have hsub : ∀ x ∈ pre, x ∈ payload.Rules :=
      fun x hx => by rw [h1]; exact List.mem_append_left _ hx
    have hpre : AllFalse (ownEval env (varsOf payload)) pre :=
      allFalse_of_not_true_not_error env (varsOf payload) pre hsound
        (fun x hx => hvalid x (hsub x hx)) hnottrue hnofail
    have hpre' : AllFalse (usedEval env (varsOf payload) payload.Rules) pre :=
      allFalse_congr _ _ payload.Rules pre hfg hsub hpre
    have hrule' : usedEval env (varsOf payload) payload.Rules rule =
        some (.ok { cost := cost, matched := true }) := by
      rw [← hfg rule (by rw [h1]; simp)]
      exact hrule
    refine ⟨_, testHandler_match env payload hvalid pre rule post cost h1 hpre' hrule',
      rfl, rfl, rfl, ?_, ?_, ?_⟩
    · simp [(records_of_allFalse _ pre hpre').1]
    · simp [(results_of_allFalse _ pre hpre').2]
    · simp [(results_of_allFalse _ pre hpre').1]
  · intro hnottrue hnofail
    have hall : AllFalse (ownEval env (varsOf payload)) payload.Rules :=
      allFalse_of_not_true_not_error env (varsOf payload) payload.Rules hsound hvalid
        hnottrue hnofail
    have hall' : AllFalse (usedEval env (varsOf payload) payload.Rules) payload.Rules :=
      allFalse_congr _ _ payload.Rules payload.Rules hfg (fun _ hx => hx) hall
    refine ⟨_, testHandler_allFalse env payload hvalid hall', rfl, rfl, rfl, ?_, ?_⟩
    · exact (records_of_allFalse _ payload.Rules hall').1
    · exact (results_of_allFalse _ payload.Rules hall').1

/-- C4 on the example `[R1(false), R2(true), R3(true)]`, submitted to the small
engine: `matched_rule` is `R2` and `evaluations` has exactly two entries. -/
theorem C4_first_match_wins_witness :
    ∃ r, testHandler demoEnv (demoPayload firstMatchRules "9.9.9.5") = some r ∧
      r.MatchedRule = some (mkRule "R2" "true") ∧
      r.ExecutionError = none ∧ r.InvalidRules = [] ∧
      r.Evaluations.map (fun e => e.Rule) = [mkRule "R1" "false"] ++ [mkRule "R2" "true"] ∧
      r.Evaluations.length = [mkRule "R1" "false"].length + 1 ∧
      r.Evaluations.map (fun e => e.Result) =
        List.replicate [mkRule "R1" "false"].length false ++ [true] :=
  (C4_first_match_wins demoEnv (demoPayload firstMatchRules "9.9.9.5")
      demoEnv_boolSound (by decide) (by decide)).1
    [mkRule "R1" "false"] (mkRule "R2" "true") [mkRule "R3" "true"] 1 rfl
    (by
      intro x hx k
      rw [List.mem_singleton] at hx
      subst hx
      have hown : ownEval demoEnv (varsOf (demoPayload firstMatchRules "9.9.9.5"))
          (mkRule "R1" "false") = some (.ok { cost := 1, matched := false }) := rfl
      rw [hown]
      simp)
    (by
      intro x hx msg
      rw [List.mem_singleton] at hx
      subst hx
      have hown : ownEval demoEnv (varsOf (demoPayload firstMatchRules "9.9.9.5"))
          (mkRule "R1" "false") = some (.ok { cost := 1, matched := false }) := rfl
      rw [hown]
      simp)
    rfl

/-- C5. Runtime-error halt: for every valid rule list, if the evaluation of a
rule fails and the evaluations of all rules before it gave `false`, then
`execution_error` is set with that rule and the failure's message,
`matched_rule` is unset, and `evaluations` has exactly the records of the rules
before it, in order, all with result `false`; and in every result at most one
of `matched_rule` and `execution_error` is set. -/
theorem C5_runtime_error_halt (env : Env Ast Prog) (payload : TestPayload) :
    ((∀ rule ∈ payload.Rules, passes env rule = true) →
      ∀ pre rule post msg, payload.Rules = pre ++ rule :: post →
        AllFalse (usedEval env (varsOf payload) payload.Rules) pre →
        usedEval env (varsOf payload) payload.Rules rule = some (.error msg) →
        ∃ r, testHandler env payload = some r ∧
          r.ExecutionError = some { Rule := rule, Error := msg } ∧
          r.MatchedRule = none ∧
          r.Evaluations.map (fun e => e.Rule) = pre ∧
          r.Evaluations.length = pre.length ∧
          ∀ e ∈ r.Evaluations, e.Result = false) ∧
    (∀ r, testHandler env payload = some r →
      r.MatchedRule = none ∨ r.ExecutionError = none) := by
  refine ⟨?_, fun r hr => (testHandler_result_shape env payload r hr).2⟩
  intro hvalid pre rule post msg h1 hpre hrule
  refine ⟨_, testHandler_error env payload hvalid pre rule post msg h1 hpre hrule,
    rfl, rfl, (records_of_allFalse _ pre hpre).1, (results_of_allFalse _ pre hpre).2, ?_⟩
  intro e he
  exact ((records_of_allFalse _ pre hpre).2 e he).1

/-- C5 on a submission to the small engine in which the second rule fails for
the origin address `not-an-ip`. -/
theorem C5_runtime_error_halt_witness :
    ∃ r, testHandler demoEnv
        (demoPayload [mkRule "R1" "false", ipCheckRule, mkRule "R3" "true"] "not-an-ip")
        = some r ∧
      r.ExecutionError =
        some { Rule := ipCheckRule, Error := "not-an-ip is not a valid ip" } ∧
      r.MatchedRule = none ∧
      r.Evaluations.map (fun e => e.Rule) = [mkRule "R1" "false"] ∧
      r.Evaluations.length = [mkRule "R1" "false"].length ∧
      ∀ e ∈ r.Evaluations, e.Result = false :=
  (C5_runtime_error_halt demoEnv
      (demoPayload [mkRule "R1" "false", ipCheckRule, mkRule "R3" "true"] "not-an-ip")).1
    (by decide) [mkRule "R1" "false"] ipCheckRule [mkRule "R3" "true"]
    "not-an-ip is not a valid ip" rfl
    (by
      intro x hx
      rw [List.mem_singleton] at hx
      subst hx
      exact ⟨1, rfl⟩)
    (by rfl)

/-- C6. The validation pass never aborts early and classifies each rule exactly
once: the rules of the collected `invalidRules` are exactly the input rules that
`checkRule` rejects, in input order, each with the message of its own error;
every rule of the list is either rejected, appended to `invalidRules` and leaves
`asts` unchanged, or accepted, absent from `invalidRules`, stored in `asts` under
its name, and found there after the pass; and `invalid_rules` of every result
is the collected list. -/
theorem C6_validation_classifies_each_rule (env : Env Ast Prog) (payload : TestPayload) :
    (validate env payload.Rules).2.map (fun ir => ir.Rule) =
      payload.Rules.filter (fun rule => !passes env rule) ∧
    (∀ ir ∈ (validate env payload.Rules).2, checkRule ir.Rule env = .error ir.Error) ∧
    (∀ rule ∈ payload.Rules,
      (∃ msg, checkRule rule env = .error msg ∧
        { Rule := rule, Error := msg } ∈ (validate env payload.Rules).2 ∧
        ∀ st, validateStep env st rule = (st.1, st.2 ++ [{ Rule := rule, Error := msg }])) ∨
      (∃ c, checkRule rule env = .ok c ∧
        rule ∉ (validate env payload.Rules).2.map (fun ir => ir.Rule) ∧
        (∃ c', (validate env payload.Rules).1 rule.Name = some c') ∧
        ∀ st, validateStep env st rule = (st.1.set rule.Name c, st.2))) ∧
    (∀ r, testHandler env payload = some r →
      r.InvalidRules = (validate env payload.Rules).2) := by
  have hmem : ∀ ir ∈ (validate env payload.Rules).2,
      ir.Rule ∈ payload.Rules ∧ checkRule ir.Rule env = .error ir.Error := by
    intro ir hir
    rw [validate_invalid] at hir
    obtain ⟨x, hx, hinv⟩ := List.mem_filterMap.mp hir
    unfold invalidOf at hinv
    cases hc : checkRule x env with
    | error e =>
      rw [hc] at hinv
      cases hinv
      exact ⟨hx, hc⟩
    | ok c => rw [hc] at hinv; cases hinv
  refine ⟨?_, fun ir hir => (hmem ir hir).2, ?_, ?_⟩
  · rw [validate_invalid]
    generalize payload.Rules = rules
    induction rules with
    | nil => rfl
    | cons x xs ih =>
      cases hc : checkRule x env with
      | error e => simp [List.filterMap_cons, List.filter_cons, invalidOf, passes, hc, ih]
      | ok c => simp [List.filterMap_cons, List.filter_cons, invalidOf, passes, hc, ih]
  · intro rule hrule
    cases hc : checkRule rule env with
    | error e =>
      refine Or.inl ⟨e, rfl, ?_, fun st => by simp [validateStep, hc]⟩
      rw [validate_invalid]
      exact List.mem_filterMap.mpr ⟨rule, hrule, by simp [invalidOf, hc]⟩
    | ok c =>
      refine Or.inr ⟨c, rfl, ?_, ?_, fun st => by simp [validateStep, hc]⟩
      · intro hin
        obtain ⟨ir, hir, hrul⟩ := List.mem_map.mp hin
        have := (hmem ir hir).2
        rw [hrul, hc] at this
        cases this
      · have hp : passes env rule = true := (passes_iff env rule).mpr ⟨c, hc⟩
        obtain ⟨c', hc'⟩ := lastChecked_isSome_of_mem env payload.Rules rule hrule hp
        exact ⟨c', by rw [validate_asts, hc']⟩
  · intro r hr
    rw [(testHandler_result_shape env payload r hr).1, validate_invalid]

/-- C6 on a submission to the small engine with two rejected rules around an
accepted one: both rejected rules are reported, in order. -/
theorem C6_validation_classifies_each_rule_witness :
    (validate demoEnv [mkRule "m" "request.method", mkRule "R1" "true",
        mkRule "u" "undeclared"]).2 =
      [{ Rule := mkRule "m" "request.method",
         Error := "invalid return type, got string, wanted boolean" },
       { Rule := mkRule "u" "undeclared", Error := "undeclared reference" }] ∧
    (validate demoEnv (demoPayload [mkRule "m" "request.method", mkRule "R1" "true",
        mkRule "u" "undeclared"] "9.9.9.5").Rules).2.map (fun ir => ir.Rule) =
      (demoPayload [mkRule "m" "request.method", mkRule "R1" "true",
        mkRule "u" "undeclared"] "9.9.9.5").Rules.filter (fun rule => !passes demoEnv rule) :=
  ⟨by decide,
   (C6_validation_classifies_each_rule demoEnv
      (demoPayload [mkRule "m" "request.method", mkRule "R1" "true",
        mkRule "u" "undeclared"] "9.9.9.5")).1⟩

/-- C7. `checkRule` accepts a rule if and only if its expression parses,
type-checks, and has static output type exactly boolean, and then returns the
checked expression; a parse failure returns the parser's diagnostic, a check
failure the checker's diagnostic, and any other output type the error
"invalid return type, got <actual type>, wanted boolean" (with `string` for a
string-typed expression such as `request.method`); a rejected rule of a
submission appears in `invalid_rules` with its error, and nothing is
evaluated. -/
theorem C7_checkRule_requires_boolean (env : Env Ast Prog) (rule : Rule) :
    (∀ c, checkRule rule env = .ok c ↔
      ∃ ast, env.Parse rule.Expression = .ok ast ∧ env.Check ast = .ok c ∧
        env.OutputType c = CelType.BoolType) ∧
    (∀ msg, env.Parse rule.Expression = .error msg → checkRule rule env = .error msg) ∧
    (∀ ast msg, env.Parse rule.Expression = .ok ast → env.Check ast = .error msg →
      checkRule rule env = .error msg) ∧
    (∀ ast c, env.Parse rule.Expression = .ok ast → env.Check ast = .ok c →
      env.OutputType c ≠ CelType.BoolType →
      checkRule rule env = .error ("invalid return type, got " ++
        (env.OutputType c).format ++ ", wanted boolean")) ∧
    (∀ ast c, env.Parse rule.Expression = .ok ast → env.Check ast = .ok c →
      env.OutputType c = CelType.StringType →
      checkRule rule env = .error "invalid return type, got string, wanted boolean") ∧
    (∀ payload msg, rule ∈ payload.Rules → checkRule rule env = .error msg →
      ∃ r, testHandler env payload = some r ∧
        { Rule := rule, Error := msg } ∈ r.InvalidRules ∧
        r.Evaluations = [] ∧ r.MatchedRule = none ∧ r.ExecutionError = none) := by
  refine ⟨checkRule_ok_iff env rule, ?_, ?_, ?_, ?_, ?_⟩
  · intro msg hp
    simp [checkRule, hp]
  · intro ast msg hp hc
    simp [checkRule, hp, hc]
  · intro ast c hp hc hty
    simp [checkRule, hp, hc, hty]
  · intro ast c hp hc hty
    have hne : env.OutputType c ≠ CelType.BoolType := by
      rw [hty]
      decide
    simp only [checkRule, hp, hc, hne, hty, ne_eq, not_false_eq_true, ↓reduceIte]
    rfl
  · intro payload msg hmem hc
    have hex : ∃ x ∈ payload.Rules, passes env x = false :=
      ⟨rule, hmem, (passes_false_iff env rule).mpr ⟨msg, hc⟩⟩
    obtain ⟨_, hrun⟩ := testHandler_of_invalid env payload hex
    refine ⟨_, hrun, ?_, rfl, rfl, rfl⟩
    exact List.mem_filterMap.mpr ⟨rule, hmem, by simp [invalidOf, hc]⟩

/-- C7 on the rule `request.method` submitted to the small engine after a rule
that would match. -/
theorem C7_checkRule_requires_boolean_witness :
    checkRule (mkRule "m" "request.method") demoEnv =
      .error "invalid return type, got string, wanted boolean" ∧
    ∃ r, testHandler demoEnv
        (demoPayload [mkRule "R1" "true", mkRule "m" "request.method"] "9.9.9.5") = some r ∧
      { Rule := mkRule "m" "request.method",
        Error := "invalid return type, got string, wanted boolean" } ∈ r.InvalidRules ∧
      r.Evaluations = [] ∧ r.MatchedRule = none ∧ r.ExecutionError = none :=
  ⟨(C7_checkRule_requires_boolean demoEnv (mkRule "m" "request.method")).2.2.2.2.1
      DemoExpr.method DemoExpr.method rfl rfl rfl,
   (C7_checkRule_requires_boolean demoEnv (mkRule "m" "request.method")).2.2.2.2.2
      (demoPayload [mkRule "R1" "true", mkRule "m" "request.method"] "9.9.9.5")
      "invalid return type, got string, wanted boolean" (by decide) rfl⟩

/-- C8, as stated, fails for IPv4-mapped addresses: `::ffff:9.9.9.5` is not a
dotted IPv4 address and parses as an IPv6 address, `9.9.9.0/24` is an IPv4
range with a 4-byte mask, and `ipInRange` returns `true`; likewise the IPv4
address `9.9.9.5` is contained in the IPv6 range `::ffff:9.9.9.0/120`, whose
mask has 16 bytes. -/
theorem C8_ipv4_mapped_counterexample :
    GoNet.parseIPv4 "::ffff:9.9.9.5".toList = none ∧
    GoNet.parseIPv6 "::ffff:9.9.9.5".toList =
      some [0, 0, 0, 0, 0, 0, 0, 0, 0, 0, 255, 255, 9, 9, 9, 5] ∧
    GoNet.ParseCIDR "9.9.9.0/24" =
      some ([0, 0, 0, 0, 0, 0, 0, 0, 0, 0, 255, 255, 9, 9, 9, 0],
        { IP := [9, 9, 9, 0], Mask := [255, 255, 255, 0] }) ∧
    ipInRange (.str "::ffff:9.9.9.5") (.str "9.9.9.0/24") = .bool true ∧
    GoNet.parseIPv4 "9.9.9.5".toList =
      some [0, 0, 0, 0, 0, 0, 0, 0, 0, 0, 255, 255, 9, 9, 9, 5] ∧
    GoNet.parseIPv4 "::ffff:9.9.9.0".toList = none ∧
    GoNet.ParseCIDR "::ffff:9.9.9.0/120" =
      some ([0, 0, 0, 0, 0, 0, 0, 0, 0, 0, 255, 255, 9, 9, 9, 0],
        { IP := [0, 0, 0, 0, 0, 0, 0, 0, 0, 0, 255, 255, 9, 9, 9, 0],
          Mask := [255, 255, 255, 255, 255, 255, 255, 255, 255, 255, 255, 255,
            255, 255, 255, 0] }) ∧
    ipInRange (.str "9.9.9.5") (.str "::ffff:9.9.9.0/120") = .bool true := by
  decide

/-- C8, amended. For every address string that parses as an IP and every string
that parses as a CIDR network, `ipInRange` returns a boolean, which is `true` if
and only if the address lies in the network under prefix masking with matching
address family, the family being taken in normal form: an address or network
number with a 4-byte form (dotted IPv4, or IPv4-mapped IPv6) counts as IPv4. An
address and a network of different families in this sense never match. In
particular `ipInRange("9.9.9.5", "9.9.9.0/24")` is `true` and
`ipInRange("9.9.10.1", "9.9.9.0/24")` is `false`. -/
theorem C8_ipInRange_containment :
    (∀ (a c : String) (ip ip0 : List Nat) (net : GoNet.IPNet),
      GoNet.ParseIP a = some ip → GoNet.ParseCIDR c = some (ip0, net) →
      ∃ b, ipInRange (.str a) (.str c) = .bool b ∧
        (b = true ↔ GoNet.InNetwork net ip) ∧
        (GoNet.isIPv4 ip ≠ GoNet.isIPv4 net.IP → b = false) ∧
        (∃ ones, ones ≤ 8 * net.Mask.length ∧
          net.Mask = GoNet.cidrMaskLoop net.Mask.length ones)) ∧
    ipInRange (.str "9.9.9.5") (.str "9.9.9.0/24") = .bool true ∧
    ipInRange (.str "9.9.10.1") (.str "9.9.9.0/24") = .bool false := by
  refine ⟨?_, by decide, by decide⟩
  intro a c ip ip0 net ha hc
  have hiff := GoNet.ParseCIDR_Contains a c ip ip0 net ha hc
  refine ⟨net.Contains ip, by simp [ipInRange, ha, hc], hiff, ?_, ?_⟩
  · intro hfam
    cases hb : net.Contains ip with
    | false => rfl
    | true => exact absurd (hiff.mp hb).1 hfam
  · rcases (GoNet.ParseCIDR_shape c ip0 net hc).2 with ⟨n, hn, hm, _⟩ | ⟨n, hn, hm, _⟩
    · have hml : net.Mask.length = 4 := by rw [hm, GoNet.length_cidrMaskLoop]
      exact ⟨n, by rw [hml]; exact hn, by rw [hml]; exact hm⟩
    · have hml : net.Mask.length = 16 := by rw [hm, GoNet.length_cidrMaskLoop]
      exact ⟨n, by rw [hml]; exact hn, by rw [hml]; exact hm⟩

/-- C8, amended, on the address `2001:db8::1` and the range `9.9.9.0/24`, which
are of different families. -/
theorem C8_ipInRange_containment_witness :
    ∃ b, ipInRange (.str "2001:db8::1") (.str "9.9.9.0/24") = .bool b ∧
      (b = true ↔ GoNet.InNetwork { IP := [9, 9, 9, 0], Mask := [255, 255, 255, 0] }
        [32, 1, 13, 184, 0, 0, 0, 0, 0, 0, 0, 0, 0, 0, 0, 1]) ∧
      (GoNet.isIPv4 [32, 1, 13, 184, 0, 0, 0, 0, 0, 0, 0, 0, 0, 0, 0, 1] ≠
          GoNet.isIPv4 (GoNet.IPNet.IP { IP := [9, 9, 9, 0], Mask := [255, 255, 255, 0] }) →
        b = false) ∧
      (∃ ones,
        ones ≤ 8 * (GoNet.IPNet.Mask { IP := [9, 9, 9, 0], Mask := [255, 255, 255, 0] }).length ∧
        GoNet.IPNet.Mask { IP := [9, 9, 9, 0], Mask := [255, 255, 255, 0] } =
          GoNet.cidrMaskLoop
            (GoNet.IPNet.Mask { IP := [9, 9, 9, 0], Mask := [255, 255, 255, 0] }).length
            ones) :=
  C8_ipInRange_containment.1 "2001:db8::1" "9.9.9.0/24"
    [32, 1, 13, 184, 0, 0, 0, 0, 0, 0, 0, 0, 0, 0, 0, 1]
    [0, 0, 0, 0, 0, 0, 0, 0, 0, 0, 255, 255, 9, 9, 9, 0]
    { IP := [9, 9, 9, 0], Mask := [255, 255, 255, 0] } (by decide) (by decide)

/-- C9. At the failing input, an address with a percent sign: `50%` does not
parse as an IP address, and the binding returns the error value with the text
`50%!i(MISSING)s not a valid ip`, not `50% is not a valid ip`, because the
formatted text is formatted a second time by `types.NewErr`; likewise for the
valid address `9.9.9.5` and the range `50%`, which does not parse as a CIDR
network, the text is `50%!i(MISSING)s not a valid range`. -/
theorem C9_percent_failing_input :
    GoNet.ParseIP "50%" = none ∧
    ipInRange (.str "50%") (.str "9.9.9.0/24") = .err "50%!i(MISSING)s not a valid ip" ∧
    ipInRange (.str "50%") (.str "9.9.9.0/24") ≠ .err "50% is not a valid ip" ∧
    GoNet.ParseIP "9.9.9.5" ≠ none ∧
    GoNet.ParseCIDR "50%" = none ∧
    ipInRange (.str "9.9.9.5") (.str "50%") = .err "50%!i(MISSING)s not a valid range" ∧
    ipInRange (.str "9.9.9.5") (.str "50%") ≠ .err "50% is not a valid range" := by
  decide

/-- C10. Compiled expressions are associated to rules by name only: in a valid
rule list the entry of `asts` under a rule's name exists and is the checked
expression of the last rule of the list with that name; with a type-sound
engine the handler returns a result in which the result and cost of every
`Evaluation` are those of evaluating the expression of the last rule named like
its rule, and, when the names are pairwise distinct, those of the rule's own
expression; and for the list of two valid rules named `n`, the first `false`
and the second `true`, the only `Evaluation` is that of the first rule with
result `true`, and the first rule is `matched_rule` although its own expression
evaluates to `false`. -/
theorem C10_association_by_name (env : Env Ast Prog) (payload : TestPayload)
    (hvalid : ∀ rule ∈ payload.Rules, passes env rule = true) :
    (∀ rule ∈ payload.Rules,
      ∃ pre last post c, payload.Rules = pre ++ last :: post ∧ last.Name = rule.Name ∧
        (∀ x ∈ post, x.Name ≠ rule.Name) ∧ checkRule last env = .ok c ∧
        (validate env payload.Rules).1 rule.Name = some c) ∧
    (BoolSound env →
      ∃ r, testHandler env payload = some r ∧
        (∀ e ∈ r.Evaluations,
          ∃ pre last post c, payload.Rules = pre ++ last :: post ∧
            last.Name = e.Rule.Name ∧ (∀ x ∈ post, x.Name ≠ e.Rule.Name) ∧
            checkRule last env = .ok c ∧
            evaluateRule (some c) env (varsOf payload) =
              some (.ok { cost := e.Cost, matched := e.Result })) ∧
        ((payload.Rules.map (fun rule => rule.Name)).Nodup →
          ∀ e ∈ r.Evaluations,
            ownEval env (varsOf payload) e.Rule =
              some (.ok { cost := e.Cost, matched := e.Result }))) ∧
    (testHandler demoEnv (demoPayload sameNameRules "9.9.9.5") =
        some { MatchedRule := some (mkRule "n" "false"), InvalidRules := [],
               ExecutionError := none,
               Evaluations := [{ Rule := mkRule "n" "false", Result := true, Cost := 1 }] } ∧
      ownEval demoEnv (varsOf (demoPayload sameNameRules "9.9.9.5")) (mkRule "n" "false") =
        some (.ok { cost := 1, matched := false }) ∧
      ownEval demoEnv (varsOf (demoPayload sameNameRules "9.9.9.5")) (mkRule "n" "true") =
        some (.ok { cost := 1, matched := true })) := by
  refine ⟨asts_last_same_name env payload.Rules hvalid, fun hsound => ?_,
    by decide, rfl, rfl⟩
  obtain ⟨tr, evs, hrun, hend⟩ := testHandler_valid_spec env payload hsound hvalid
  have hrec := loopEnd_records _ _ _ _ _ hend
  refine ⟨_, hrun, ?_, ?_⟩
  · intro e he
    obtain ⟨hmem, hf⟩ := hrec e he
    obtain ⟨pre, last, post, c, h1, h2, h3, h4, h5⟩ :=
      asts_last_same_name env payload.Rules hvalid e.Rule hmem
    refine ⟨pre, last, post, c, h1, h2, h3, h4, ?_⟩
    unfold usedEval at hf
    rw [h5] at hf
    exact hf
  · intro hnd e he
    obtain ⟨hmem, hf⟩ := hrec e he
    rw [← usedEval_eq_ownEval env (varsOf payload) payload.Rules hnd hvalid e.Rule hmem]
    exact hf

/-- C10 on the two rules of one name submitted to the small engine: the only
`Evaluation` carries the result of the expression of the last rule named `n`. -/
theorem C10_association_by_name_witness :
    ∃ r, testHandler demoEnv (demoPayload sameNameRules "9.9.9.5") = some r ∧
      (∀ e ∈ r.Evaluations,
        ∃ pre last post c, (demoPayload sameNameRules "9.9.9.5").Rules = pre ++ last :: post ∧
          last.Name = e.Rule.Name ∧ (∀ x ∈ post, x.Name ≠ e.Rule.Name) ∧
          checkRule last demoEnv = .ok c ∧
          evaluateRule (some c) demoEnv (varsOf (demoPayload sameNameRules "9.9.9.5")) =
            some (.ok { cost := e.Cost, matched := e.Result })) ∧
      (((demoPayload sameNameRules "9.9.9.5").Rules.map (fun rule => rule.Name)).Nodup →
        ∀ e ∈ r.Evaluations,
          ownEval demoEnv (varsOf (demoPayload sameNameRules "9.9.9.5")) e.Rule =
            some (.ok { cost := e.Cost, matched := e.Result })) :=
  (C10_association_by_name demoEnv (demoPayload sameNameRules "9.9.9.5")
    (by decide)).2.1 demoEnv_boolSound

end Claims

end CelDemo
